import Mathlib

/-!
mcpyammy: a verification development.

A shallow embedding of the synchronisation engine of `mcpyammy` (Go) and
theorems about it.  Go `string` values that are file paths are lists of
characters (`List Char`); every other string is a `String`.

The first part models the functions of Go's `path/filepath` and `strings`
(Unix flavour) that `validateSafePath` calls.  They are library code, so the
model follows their documented element-wise behaviour.
-/

set_option autoImplicit false

deriving instance DecidableEq for Except

namespace Mcpyammy

/-! ## Library model: `strings` and `path/filepath` (Unix) -/

/-- The path separator of `path/filepath` on Unix. -/
def Separator : Char := '/'

/-- The elements of a path: the pieces between separators, empty ones included
(`"/a//b"` gives `["", "a", "", "b"]`). -/
def splitSep : List Char → List (List Char)
  | [] => [[]]
  | c :: cs =>
    if c = Separator then [] :: splitSep cs
    else
      match splitSep cs with
      | [] => [[c]]
      | s :: ss => (c :: s) :: ss

/-- Go `strings.Join(elems, "/")`. -/
def joinSep : List (List Char) → List Char
  | [] => []
  | [s] => s
  | s :: t :: ts => s ++ Separator :: joinSep (t :: ts)

/-- The element `..`. -/
def dotdot : List Char := ['.', '.']

/-- One step of the scan of `filepath.Clean`.  `out` is the output written so
far as a stack of elements, last element first.  Empty and `.` elements are
skipped; `..` removes the last element when the output can backtrack (its last
element is not itself a `..`), is appended when the path is not rooted, and is
dropped at the root; any other element is appended. -/
def cleanStep (rooted : Bool) (out : List (List Char)) (e : List Char) : List (List Char) :=
  if e = [] ∨ e = ['.'] then out
  else if e = dotdot then
    match out with
    | top :: rest => if top = dotdot then (if rooted then out else e :: out) else rest
    | [] => if rooted then [] else [e]
  else e :: out

/-- Go `filepath.Clean` on Unix: the shortest path name equivalent to `path` by
purely lexical processing.  The empty path becomes `.`. -/
def Clean (path : List Char) : List Char :=
  if path = [] then ['.']
  else
    let rooted := path.head? = some Separator
    let out := ((splitSep path).foldl (cleanStep rooted) []).reverse
    if rooted then Separator :: joinSep out
    else if out = [] then ['.'] else joinSep out

/-- Go `filepath.IsAbs` on Unix. -/
def IsAbs (path : List Char) : Bool := path.head? = some Separator

/-- Go `filepath.Join`: the elements from the first non-empty one on, joined by
the separator and cleaned; the empty string when every element is empty. -/
def Join (elem : List (List Char)) : List Char :=
  match elem.dropWhile (fun e => e = []) with
  | [] => []
  | e :: es => Clean (joinSep (e :: es))

/-- Go `strings.HasPrefix`. -/
def HasPrefix (s pre : List Char) : Bool := pre.isPrefixOf s

/-- Go `strings.CutPrefix`: the rest of `s` after `pre`, when `s` starts with it. -/
def CutPrefix (s pre : List Char) : Option (List Char) :=
  if pre.isPrefixOf s then some (s.drop pre.length) else none

/-- The elements that the scan of `filepath.Rel` walks through in a cleaned
path: none for the empty path, one empty element for the root. -/
def relElems (p : List Char) : List (List Char) :=
  if p = [] then [] else if p = [Separator] then [[]] else splitSep p

/-- Drops the longest common prefix of two element lists. -/
def dropCommon : List (List Char) → List (List Char) → List (List Char) × List (List Char)
  | b :: bs, t :: ts => if t = b then dropCommon bs ts else (b :: bs, t :: ts)
  | bs, ts => (bs, ts)

/-- Go `filepath.Rel` on Unix: a relative path that is lexically equivalent to
`targpath` when joined to `basepath`; `none` is its error (one path rooted and
the other not, or the scan stopped at two differing elements of which the
base's is `..`). -/
def Rel (basepath targpath : List Char) : Option (List Char) :=
  let base := Clean basepath
  let targ := Clean targpath
  if targ = base then some ['.']
  else
    let base := if base = ['.'] then [] else base
    if IsAbs base != IsAbs targ then none
    else
      let r := dropCommon (relElems base) (relElems targ)
      if r.2 ≠ [] ∧ r.1.head? = some dotdot then none
      else some (joinSep (List.replicate r.1.length dotdot ++ r.2))

/-- Go `filepath.Abs` on Unix; `wd` is what `os.Getwd` gives (`none`: error). -/
def Abs (wd : Option (List Char)) (path : List Char) : Option (List Char) :=
  if IsAbs path then some (Clean path)
  else
    match wd with
    | none => none
    | some d => some (Join [d, path])

/-! ## `config.go`: `validateSafePath` -/

/-- The errors of `validateSafePath`, one per `fmt.Errorf` site. -/
inductive PathError
  | noPath
  | relFailed
  | outsideHome
  | absFailed
  deriving DecidableEq, Repr

/-- `validateSafePath` of `config.go`. -/
def validateSafePath (wd : Option (List Char)) (pathStr homeDir : List Char) :
    Except PathError (List Char) :=
  if pathStr = [] then .error .noPath
  else
    let cleanPath := Clean pathStr
    let resolvedPath :=
      match CutPrefix cleanPath ['~'] with
      | some after => Join [homeDir, after]
      | none => if !IsAbs cleanPath then Join [homeDir, cleanPath] else cleanPath
    match Rel homeDir resolvedPath with
    | none => .error .relFailed
    | some relPath =>
      if HasPrefix relPath dotdot then .error .outsideHome
      else
        match Abs wd resolvedPath with
        | none => .error .absFailed
        | some absPath => .ok absPath


/-! ## Vocabulary of the statements about paths -/

/-- An element that `Clean` keeps: not empty, not `.`, free of separators. -/
def IsElem (e : List Char) : Prop := e ≠ [] ∧ e ≠ ['.'] ∧ Separator ∉ e

/-- A kept element that is not `..` either. -/
def IsName (e : List Char) : Prop := IsElem e ∧ e ≠ dotdot

/-- A rooted path written from its elements. -/
def rooted (segs : List (List Char)) : List Char := Separator :: joinSep segs

/-- Lexical containment: `r` is `h`, or `h` is the root, or `r` continues `h`
with a separator. -/
def Within (h r : List Char) : Prop :=
  r = h ∨ h = [Separator] ∨ (h ++ [Separator]) <+: r

/-! ## Dynamic values

What the YAML and JSON decoders produce (`interface{}` in Go): `nil`, booleans,
numbers, strings, `[]interface{}` and `map[string]interface{}`.  A map is an
association list read by its first binding for a key; the code under study
never inspects a number, so integers stand for all of them. -/

/-- A decoded YAML or JSON value. -/
inductive Value
  | null
  | bool (b : Bool)
  | num (n : Int)
  | str (s : String)
  | arr (xs : List Value)
  | obj (kvs : List (String × Value))
  deriving Repr, Inhabited

/-- Go `map[string]interface{}`. -/
abbrev Obj := List (String × Value)

/-- Go `v, exists := m[k]`: the binding of `k`, `none` when there is none. -/
def Obj.get (m : Obj) (k : String) : Option Value := m.lookup k

/-- Go `m[k]` used as a value: `nil` when the key has no binding. -/
def Obj.index (m : Obj) (k : String) : Value := (Obj.get m k).getD .null

/-- Go `m[k] = v`: overwrites the binding of `k`, or adds one. -/
def Obj.set : Obj → String → Value → Obj
  | [], k, v => [(k, v)]
  | (k', v') :: rest, k, v =>
    if k' = k then (k, v) :: rest else (k', v') :: Obj.set rest k v

/-- The keys of a map. -/
def Obj.keys (m : Obj) : List String := m.map Prod.fst

/-! ## `main.go`: `OrderedServer` -/

/-- `OrderedServer` of `main.go`.  A nil slice or nil map is `none`. -/
structure OrderedServer where
  Name : String
  Command : String
  Args : Option (List String)
  Env : Option (List (String × String))
  Extra : Obj
  deriving Repr, Inhabited

/-! ## `utils.go` -/

/-- The `args` loop of `convertMcpServersToYaml`: a slice of the same length,
whose slot `i` receives element `i` when it is a string and keeps the zero
value `""` otherwise. -/
def stringArgs (args : List Value) : List String :=
  args.map (fun arg => match arg with | .str s => s | _ => "")

/-- The string in an argument slot: the element when it is a string, and the
zero value otherwise. -/
def argString : Value → String
  | .str s => s
  | _ => ""

/-- The `env` loop of `convertMcpServersToYaml`: the bindings whose value is a
string. -/
def envMap (env : Obj) : List (String × String) :=
  env.filterMap (fun kv => match kv.2 with | .str s => some (kv.1, s) | _ => none)

/-- The body of the loop of `convertMcpServersToYaml` for one map entry: an
`OrderedServer` when the value is an object, nothing otherwise. -/
def convertEntry (name : String) (serverData : Value) : Option OrderedServer :=
  match serverData with
  | .obj server =>
    some
      { Name := name
        Command := match Obj.index server "command" with | .str cmd => cmd | _ => ""
        Args := match Obj.index server "args" with | .arr args => some (stringArgs args) | _ => none
        Env := match Obj.index server "env" with | .obj env => some (envMap env) | _ => none
        Extra := server.filter (fun kv => kv.1 ≠ "command" ∧ kv.1 ≠ "args" ∧ kv.1 ≠ "env") }
  | _ => none

/-- `convertMcpServersToYaml` of `utils.go`.  The argument lists the entries of
the map in the order in which the `range` loop happens to visit them. -/
def convertMcpServersToYaml (mcpServers : Obj) : List OrderedServer :=
  mcpServers.filterMap (fun kv => convertEntry kv.1 kv.2)

/-- `processSingleServerConfig` of `utils.go`; `none` is `ok = false`. -/
def processSingleServerConfig (serverData : Value) : Option (String × Obj) :=
  match serverData with
  | .obj server =>
    match Obj.index server "name" with
    | .str name =>
      if name = "" then none
      else some (name, server.filter (fun kv => kv.1 ≠ "name"))
    | _ => none
  | _ => none

/-- `extractClientServers` of `utils.go`. -/
def extractClientServers (config : Obj) : Obj :=
  match Obj.index config "servers" with
  | .arr clientServers =>
    clientServers.foldl
      (fun servers serverData =>
        match processSingleServerConfig serverData with
        | some (name, serverConfig) => Obj.set servers name (.obj serverConfig)
        | none => servers)
      []
  | _ => []

/-! ## Vocabulary of the statements about `utils.go` -/

/-- The last valid entry named `n` of a servers list, as `extractClientServers`
keeps it: the copy of its fields that `processSingleServerConfig` makes. -/
def lastConfig (n : String) : List Value → Option Obj
  | [] => none
  | x :: xs =>
    match lastConfig n xs with
    | some c => some c
    | none =>
      match processSingleServerConfig x with
      | some (m, c) => if m = n then some c else none
      | none => none

/-- A server that has only a name and, each optionally, a string command, a
list of string arguments and a string-valued environment. -/
structure PlainServer where
  name : String
  command : Option String
  args : Option (List String)
  env : Option (List (String × String))
  deriving Repr

/-- The fields of a plain server other than its name, as decoded values. -/
def PlainServer.fields (s : PlainServer) : Obj :=
  (match s.command with | some c => [("command", Value.str c)] | none => []) ++
  (match s.args with | some a => [("args", Value.arr (a.map Value.str))] | none => []) ++
  (match s.env with
    | some e => [("env", Value.obj (e.map (fun kv => (kv.1, Value.str kv.2))))]
    | none => [])

/-- The manifest entry of a plain server: its name and its fields. -/
def PlainServer.entry (s : PlainServer) : Value :=
  .obj (("name", .str s.name) :: s.fields)

/-- The `OrderedServer` with the same name, command, arguments and environment
and nothing extra (an absent command is the zero value `""`). -/
def PlainServer.spec (s : PlainServer) : OrderedServer :=
  { Name := s.name, Command := s.command.getD "", Args := s.args, Env := s.env, Extra := [] }

/-- The source object that an `OrderedServer` stands for: its command when it
is not the zero value, its arguments and environment when they are not nil, and
the extra fields. -/
def recoverFields (s : OrderedServer) : Obj :=
  (if s.Command = "" then [] else [("command", Value.str s.Command)]) ++
  (match s.Args with | some a => [("args", Value.arr (a.map Value.str))] | none => []) ++
  (match s.Env with
    | some e => [("env", Value.obj (e.map (fun kv => (kv.1, Value.str kv.2))))]
    | none => []) ++
  s.Extra

/-- A file-map object whose `command`, when bound, is a non-empty string, whose
`args`, when bound, is a list of strings and whose `env`, when bound, is an
object of strings. -/
def PlainFields (server : Obj) : Prop :=
  (Obj.get server "command" = none ∨
    ∃ c, c ≠ "" ∧ Obj.get server "command" = some (.str c)) ∧
  (Obj.get server "args" = none ∨
    ∃ a : List String, Obj.get server "args" = some (.arr (a.map Value.str))) ∧
  (Obj.get server "env" = none ∨
    ∃ e : List (String × String),
      Obj.get server "env" = some (.obj (e.map (fun kv => (kv.1, Value.str kv.2)))))

/-! ## The file system and the JSON codec

The JSON codec is an external collaborator.  A file is described by what
`os.ReadFile` and `json.Unmarshal` make of it.  Whether `json.MarshalIndent`
accepts a structure is given by the environment (`encodeOk`: the encoder
refuses a number that is not finite, for instance).  `json.Unmarshal` into
`map[string]interface{}` reads every number as a float64, so a file written
from `v` decodes to `v` with each number replaced by what it reads back as
(`readBack`: an integer above 2^53 comes back rounded); nothing else of a
structure changes in the round trip. -/

/-- The bytes of a readable file: none, bytes that are not JSON, or the JSON
text of a value. -/
inductive FileData
  | empty
  | garbage
  | json (v : Value)
  deriving Repr

mutual
/-- What a value reads back as after `json.MarshalIndent` and `json.Unmarshal`:
the same structure, each number replaced by `readBack` of it. -/
def rereadValue (readBack : Int → Int) : Value → Value
  | .null => .null
  | .bool b => .bool b
  | .num n => .num (readBack n)
  | .str s => .str s
  | .arr xs => .arr (rereadList readBack xs)
  | .obj kvs => .obj (rereadFields readBack kvs)
/-- What the elements of an array read back as. -/
def rereadList (readBack : Int → Int) : List Value → List Value
  | [] => []
  | v :: vs => rereadValue readBack v :: rereadList readBack vs
/-- What the members of an object read back as. -/
def rereadFields (readBack : Int → Int) : List (String × Value) → List (String × Value)
  | [] => []
  | (k, v) :: kvs => (k, rereadValue readBack v) :: rereadFields readBack kvs
end

/-- The environment of a run: what `os.ReadFile` gives for each path (`none`
is an error, a missing file for instance), whether
`os.MkdirAll(filepath.Dir(path), mode)` and `os.WriteFile(path, ...)` succeed,
the working directory that `os.Getwd` reports, whether `json.MarshalIndent`
accepts a structure, what a written number reads back as, and the log of the
successful `os.WriteFile` calls so far, each with its path and the structure
that was encoded. -/
structure World where
  files : List Char → Option FileData
  mkdirOk : List Char → Bool
  writeOk : List Char → Bool
  wd : Option (List Char)
  encodeOk : Obj → Bool
  readBack : Int → Int
  writes : List (List Char × Obj)

/-- The world after a successful `os.WriteFile(path, json.MarshalIndent(content))`:
the file at `path` now decodes to what `content` reads back as, and the call is
logged. -/
def World.write (w : World) (path : List Char) (content : Obj) : World :=
  { w with
    files := fun q =>
      if q = path then some (.json (.obj (rereadFields w.readBack content))) else w.files q
    writes := w.writes ++ [(path, content)] }

/-- Go `json.Unmarshal(data, &existing)` where `existing` is a freshly made
empty map: whether it returns an error, and the map afterwards (`none` is the
nil map that the document `null` leaves; an error leaves the map untouched). -/
def unmarshalInto (data : FileData) : Bool × Option Obj :=
  match data with
  | .json (.obj m) => (false, some m)
  | .json .null => (false, none)
  | _ => (true, some [])

/-- Go `len(data) > 0`. -/
def FileData.nonEmpty : FileData → Bool
  | .empty => false
  | _ => true

/-- A JSON string literal: the text between quotes, with a backslash before a
quote or a backslash. -/
def quoteJSON (s : String) : String :=
  String.mk
    (Char.ofNat 34 ::
      s.data.foldr
        (fun c acc => if c = Char.ofNat 34 ∨ c = Char.ofNat 92 then Char.ofNat 92 :: c :: acc
          else c :: acc)
        [Char.ofNat 34])

/-- Inserts a member into members sorted by name. -/
def insertMember (m : String × String) : List (String × String) → List (String × String)
  | [] => [m]
  | x :: xs => if x.1.data < m.1.data then x :: insertMember m xs else m :: x :: xs

/-- The members `"name":text` joined by commas. -/
def joinMembers : List (String × String) → String
  | [] => ""
  | [m] => quoteJSON m.1 ++ ":" ++ m.2
  | m :: n :: ms => quoteJSON m.1 ++ ":" ++ m.2 ++ "," ++ joinMembers (n :: ms)

mutual
/-- A model of `json.Marshal`, used where a statement needs a concrete
serializer: compact JSON text, the members of an object sorted by name. -/
def jsonMarshal : Value → String
  | .null => "null"
  | .bool b => if b then "true" else "false"
  | .num n => toString n
  | .str s => quoteJSON s
  | .arr xs => "[" ++ jsonMarshalList xs ++ "]"
  | .obj kvs => "\x7b" ++ joinMembers (jsonMarshalFields kvs) ++ "\x7d"
/-- Compact JSON text of the elements of an array. -/
def jsonMarshalList : List Value → String
  | [] => ""
  | [v] => jsonMarshal v
  | v :: w :: vs => jsonMarshal v ++ "," ++ jsonMarshalList (w :: vs)
/-- The members of an object, each with the text of its value, sorted by name. -/
def jsonMarshalFields : List (String × Value) → List (String × String)
  | [] => []
  | (k, v) :: kvs => insertMember (k, jsonMarshal v) (jsonMarshalFields kvs)
end

/-! ## `processor.go` and `tui.go`: apply -/

/-- The merge shared by both apply paths (`processor.go` 67-73, `tui.go`
525-531): make `mcpServers` an empty map when it is nil, assert that it is a
map, and store every desired server in it.  `none` is a run-time panic: an
assignment into a nil map, or a failed type assertion. -/
def mergeServers (existing : Option Obj) (servers : Obj) : Option Obj :=
  match existing with
  | none => none
  | some ex =>
    let ex1 :=
      match Obj.index ex "mcpServers" with
      | .null => Obj.set ex "mcpServers" (.obj [])
      | _ => ex
    match Obj.index ex1 "mcpServers" with
    | .obj mcpServers =>
      some (Obj.set ex1 "mcpServers"
        (.obj (servers.foldl (fun m kv => Obj.set m kv.1 kv.2) mcpServers)))
    | _ => none

/-- The errors that `processClientConfig` returns. -/
inductive ApplyError
  | noPath
  | security (e : PathError)
  | noServers
  | jsonParse
  | mkdir
  | marshal
  | write
  deriving DecidableEq, Repr

/-- How `processClientConfig` ends: it returns nil after writing the file, it
returns an error, or it panics. -/
inductive ApplyResult
  | ok
  | failed (e : ApplyError)
  | panicked
  deriving DecidableEq, Repr

/-- `processClientConfig` of `processor.go`. -/
def processClientConfig (w : World) (clientConfig : Obj) (homeDir : List Char) :
    World × ApplyResult :=
  match Obj.index clientConfig "path" with
  | .str pathStr =>
    match validateSafePath w.wd pathStr.data homeDir with
    | .error e => (w, .failed (.security e))
    | .ok validatedPath =>
      let servers := extractClientServers clientConfig
      if servers.length = 0 then (w, .failed .noServers)
      else
        let read : Bool × Option Obj :=
          match w.files validatedPath with
          | some data => if data.nonEmpty then unmarshalInto data else (false, some [])
          | none => (false, some [])
        if read.1 then (w, .failed .jsonParse)
        else
          match mergeServers read.2 servers with
          | none => (w, .panicked)
          | some merged =>
            if !w.mkdirOk validatedPath then (w, .failed .mkdir)
            else if !w.encodeOk merged then (w, .failed .marshal)
            else if !w.writeOk validatedPath then (w, .failed .write)
            else (w.write validatedPath merged, .ok)
  | _ => (w, .failed .noPath)

/-- Why the loop of `performApply` moves on to the next client without
counting this one. -/
inductive SkipReason
  | notMapping
  | noPath
  | noServers
  | unsafePath
  | noChanges
  | mkdir
  | marshal
  | write
  deriving DecidableEq, Repr

/-- How one iteration of the loop of `performApply` ends: with `continue`,
with `processedCount++` after writing the file, or with a panic. -/
inductive TuiResult
  | skipped (r : SkipReason)
  | updated
  | panicked
  deriving DecidableEq, Repr

/-- The change test of `performApply`: some desired server is missing from the
existing ones or serializes differently, or else some existing server is not
among the desired ones. -/
def hasChanges (marshal : Value → String) (servers existingServers : Obj) : Bool :=
  servers.any
      (fun kv =>
        match Obj.get existingServers kv.1 with
        | none => true
        | some existingServer => marshal kv.2 != marshal existingServer) ||
    existingServers.any (fun kv => (Obj.get servers kv.1).isNone)

/-- The body of the loop of `performApply` of `tui.go` for one client;
`marshal` is `json.Marshal`. -/
def performApplyClient (marshal : Value → String) (w : World) (home : List Char)
    (clientConfig : Value) : World × TuiResult :=
  match clientConfig with
  | .obj config =>
    match Obj.index config "path" with
    | .str pathStr =>
      let servers := extractClientServers config
      if servers.length = 0 then (w, .skipped .noServers)
      else
        match validateSafePath w.wd pathStr.data home with
        | .error _ => (w, .skipped .unsafePath)
        | .ok validatedPath =>
          let existing : Option Obj :=
            match w.files validatedPath with
            | some data => if data.nonEmpty then (unmarshalInto data).2 else some []
            | none => some []
          let existingServers : Option Obj :=
            match Obj.index (existing.getD []) "mcpServers" with
            | .null => some []
            | .obj m => some m
            | _ => none
          match existingServers with
          | none => (w, .panicked)
          | some existingServers =>
            if !hasChanges marshal servers existingServers then (w, .skipped .noChanges)
            else
              match mergeServers existing servers with
              | none => (w, .panicked)
              | some merged =>
                if !w.mkdirOk validatedPath then (w, .skipped .mkdir)
                else if !w.encodeOk merged then (w, .skipped .marshal)
                else if !w.writeOk validatedPath then (w, .skipped .write)
                else (w.write validatedPath merged, .updated)
    | _ => (w, .skipped .noPath)
  | _ => (w, .skipped .notMapping)

/-! ## Vocabulary of the statements about apply -/

/-- The added set: desired names absent from the existing servers. -/
def addedNames (servers existingServers : Obj) : List String :=
  (Obj.keys servers).filter (fun n => (Obj.get existingServers n).isNone)

/-- The removed set: existing names absent from the desired servers. -/
def removedNames (servers existingServers : Obj) : List String :=
  (Obj.keys existingServers).filter (fun n => (Obj.get servers n).isNone)

/-- The changed set: names in both whose serialized values differ. -/
def changedNames (marshal : Value → String) (servers existingServers : Obj) : List String :=
  (Obj.keys servers).filter
    (fun n =>
      match Obj.get servers n, Obj.get existingServers n with
      | some a, some b => marshal a != marshal b
      | _, _ => false)

/-- The existing servers of a decoded file content: its `mcpServers` object,
and the empty map when there is none. -/
def existingServersOf (e : Obj) : Obj :=
  match Obj.index e "mcpServers" with
  | .obj ms => ms
  | _ => []

/-- A world without files in which every directory can be made, every file
written and every structure encoded, and every number reads back as itself. -/
def emptyWorld : World :=
  { files := fun _ => none
    mkdirOk := fun _ => true
    writeOk := fun _ => true
    wd := none
    encodeOk := fun _ => true
    readBack := fun n => n
    writes := [] }

/-- The setting of the statements about one client of apply: the client has a
string path that resolves to `vp`, it declares at least one valid server, the
file at `vp` is missing or empty (`e` is then the empty map) or holds the JSON
object `e`, the `mcpServers` of `e` is nil (absent or `null`) or an object, and
the directory and the file can be written. -/
structure ApplySetting (w : World) (home : List Char) (config : Obj) (vp : List Char)
    (e : Obj) : Prop where
  path : ∃ p, Obj.index config "path" = .str p ∧ validateSafePath w.wd p.data home = .ok vp
  servers : extractClientServers config ≠ []
  file : w.files vp = some (.json (.obj e)) ∨
    ((w.files vp = none ∨ w.files vp = some .empty) ∧ e = [])
  mcp : Obj.index e "mcpServers" = .null ∨ ∃ ms, Obj.index e "mcpServers" = .obj ms
  io : w.mkdirOk vp = true ∧ w.writeOk vp = true

/-- A manifest client for the examples: one server `test` written to
`~/.claude.json`. -/
def demoConfig : Obj :=
  [("path", .str "~/.claude.json"),
   ("servers", .arr [.obj [("name", .str "test"), ("command", .str "foo")]])]

/-- The home directory of the examples. -/
def demoHome : List Char := "/home/u".data

/-- A world for the examples, in which `/home/u/.claude.json` already holds the
server of `demoConfig`, a server `old` that the manifest does not name, and a
key `theme`. -/
def demoWorld : World :=
  { files := fun q =>
      if q = "/home/u/.claude.json".data then
        some (.json (.obj
          [("theme", .str "dark"),
           ("mcpServers", .obj
              [("old", .obj [("command", .str "bar")]),
               ("test", .obj [("command", .str "foo")])])]))
      else none
    mkdirOk := fun _ => true
    writeOk := fun _ => true
    wd := none
    encodeOk := fun _ => true
    readBack := fun n => n
    writes := [] }

/-- A world for the examples, in which `/home/u/.claude.json` holds exactly the
server of `demoConfig`. -/
def syncedWorld : World :=
  { files := fun q =>
      if q = "/home/u/.claude.json".data then
        some (.json (.obj [("mcpServers", .obj [("test", .obj [("command", .str "foo")])])]))
      else none
    mkdirOk := fun _ => true
    writeOk := fun _ => true
    wd := none
    encodeOk := fun _ => true
    readBack := fun n => n
    writes := [] }

/-! ## `main.go`: the limits and `parseYAMLSafely`; `config.go`: `loadAndValidateYAML`

The YAML decoder is an external collaborator, passed as `yamlUnmarshal`: the
map it stores in the target, `none` for its error.  A payload is a `String`;
its length in bytes is `utf8ByteSize` and the `range` loop visits its
characters.  The counters are unbounded integers: a payload cannot be long
enough to overflow a 64-bit counter. -/

/-- `MaxYAMLSize` of `main.go`. -/
def MaxYAMLSize : Int := 1024 * 1024

/-- `MaxNestLevel` of `main.go`. -/
def MaxNestLevel : Int := 50

/-- The opening brace, an opening character. -/
def openBrace : Char := Char.ofNat 123

/-- The closing brace, a closing character. -/
def closeBrace : Char := Char.ofNat 125

/-- The cases `'{', '['` of the `switch` of `parseYAMLSafely`. -/
def isOpening (c : Char) : Bool := c = openBrace || c = '['

/-- The cases `'}', ']'` of the `switch` of `parseYAMLSafely`. -/
def isClosing (c : Char) : Bool := c = closeBrace || c = ']'

/-- The errors of `parseYAMLSafely`: the size error, the depth error with the
depth it detected, and the error of the decoder. -/
inductive ParseError
  | tooLarge
  | tooDeep (detected : Int)
  | decode
  deriving DecidableEq, Repr

/-- The errors of `loadAndValidateYAML`. -/
inductive LoadError
  | read
  | validation (e : ParseError)
  | noClients
  deriving DecidableEq, Repr

/-- The loop of `parseYAMLSafely` from the state `currentLevel`, `maxDetected`:
`some d` when it returns the depth error with `d` detected levels, `none` when
it runs to the end of the text. -/
def scanNesting (maxNestLevel : Int) : List Char → Int → Int → Option Int
  | [], _, _ => none
  | char :: rest, currentLevel, maxDetected =>
    let st : Int × Int :=
      if isOpening char then
        (currentLevel + 1,
          if currentLevel + 1 > maxDetected then currentLevel + 1 else maxDetected)
      else if isClosing char then (currentLevel - 1, maxDetected)
      else (currentLevel, maxDetected)
    if st.2 > maxNestLevel then some st.2 else scanNesting maxNestLevel rest st.1 st.2

/-- `parseYAMLSafely` of `main.go`; the result is the error or the decoded
target. -/
def parseYAMLSafely (yamlUnmarshal : String → Option Obj) (yamlData : String)
    (maxSize : Int) : Except ParseError Obj :=
  if (yamlData.utf8ByteSize : Int) > maxSize then .error .tooLarge
  else
    match scanNesting MaxNestLevel yamlData.data 0 0 with
    | some detected => .error (.tooDeep detected)
    | none =>
      match yamlUnmarshal yamlData with
      | none => .error .decode
      | some content => .ok content

/-- `loadAndValidateYAML` of `config.go`; `readFile` is `os.ReadFile`. -/
def loadAndValidateYAML (readFile : String → Option String)
    (yamlUnmarshal : String → Option Obj) (yamlFile : String) : Except LoadError Obj :=
  match readFile yamlFile with
  | none => .error .read
  | some yamlData =>
    match parseYAMLSafely yamlUnmarshal yamlData MaxYAMLSize with
    | .error e => .error (.validation e)
    | .ok yamlContent =>
      match Obj.index yamlContent "clients" with
      | .obj _ => .ok yamlContent
      | _ => .error .noClients

/-- The running count of a text: its opening characters minus its closing
characters. -/
def nestDepth (cs : List Char) : Int :=
  (cs.countP isOpening : Int) - (cs.countP isClosing : Int)

/-- The manifest of `TestBaseProcessor_LoadAndValidateYAML`, decoded: a client
whose `servers` is a mapping, not a list. -/
def testManifest : Obj :=
  [("clients", .obj
    [("test", .obj
      [("path", .str "/test/path"),
       ("servers", .obj [("test-server", .obj [("command", .str "test")])])])])]

/-! ## `processor.go`, `config.go` and `tui.go`: the batch loops

A `range` loop over a map visits the entries in the order of the association
list, so a statement for every list is a statement for every visiting order. -/

/-- How a batch function ends: it returns the count of processed clients, it
returns an error (the process then exits with code 1), or it panics. -/
inductive BatchResult
  | done (processedCount : Nat)
  | failed
  | panicked
  deriving DecidableEq, Repr

/-- The loop of `BaseProcessor.processClients`, from the state `s` and the count
`processedCount`.  `processFunc` threads the state that its calls act on. -/
def processClientsLoop {σ : Type} (processFunc : σ → String → Obj → List Char → σ × ApplyResult)
    (homeDir : List Char) : List (String × Value) → σ → Nat → σ × BatchResult
  | [], s, processedCount => (s, .done processedCount)
  | (clientName, clientConfig) :: rest, s, processedCount =>
    match clientConfig with
    | .obj config =>
      match processFunc s clientName config homeDir with
      | (s1, .ok) => processClientsLoop processFunc homeDir rest s1 (processedCount + 1)
      | (s1, .failed _) => processClientsLoop processFunc homeDir rest s1 processedCount
      | (s1, .panicked) => (s1, .panicked)
    | _ => processClientsLoop processFunc homeDir rest s processedCount

/-- `BaseProcessor.processClients` of `processor.go`; `getHomeDir` is what
`os.UserHomeDir` gives (`none`: error).  The unchecked type assertion on
`clients` panics when it is not a mapping. -/
def processClients {σ : Type} (getHomeDir : Option (List Char)) (yamlContent : Obj)
    (processFunc : σ → String → Obj → List Char → σ × ApplyResult) (s : σ) : σ × BatchResult :=
  match getHomeDir with
  | none => (s, .failed)
  | some homeDir =>
    match Obj.index yamlContent "clients" with
    | .obj clients => processClientsLoop processFunc homeDir clients s 0
    | _ => (s, .panicked)

/-- `applyConfig` of `config.go`: load the manifest and run `processClientConfig`
over its clients; an error of either step ends the process with code 1. -/
def applyConfig (readFile : String → Option String) (yamlUnmarshal : String → Option Obj)
    (getHomeDir : Option (List Char)) (w : World) (yamlFile : String) : World × BatchResult :=
  match loadAndValidateYAML readFile yamlUnmarshal yamlFile with
  | .error _ => (w, .failed)
  | .ok yamlContent =>
    processClients getHomeDir yamlContent (fun w1 _ config homeDir =>
      processClientConfig w1 config homeDir) w

/-- The loop of `performApply` of `tui.go`. -/
def performApplyLoop (marshal : Value → String) (home : List Char) :
    List (String × Value) → World → Nat → World × BatchResult
  | [], w, processedCount => (w, .done processedCount)
  | (_, clientConfig) :: rest, w, processedCount =>
    match performApplyClient marshal w home clientConfig with
    | (w1, .updated) => performApplyLoop marshal home rest w1 (processedCount + 1)
    | (w1, .skipped _) => performApplyLoop marshal home rest w1 processedCount
    | (w1, .panicked) => (w1, .panicked)

/-- `performApply` of `tui.go`; `home` is the result of `os.UserHomeDir`, whose
error is discarded. -/
def performApply (readFile : String → Option String) (yamlUnmarshal : String → Option Obj)
    (marshal : Value → String) (home : List Char) (w : World) (yamlFile : String) :
    World × BatchResult :=
  match loadAndValidateYAML readFile yamlUnmarshal yamlFile with
  | .error _ => (w, .failed)
  | .ok yamlContent =>
    match Obj.index yamlContent "clients" with
    | .obj clients => performApplyLoop marshal home clients w 0
    | _ => (w, .panicked)

/-- How one iteration of the loop of `generateApplyPreview` ends: with
`continue`, with the client's change lines (the names it marks `+`, `-` and
`~`, none at all when nothing changed), or with a panic. -/
inductive PreviewResult
  | skipped (r : SkipReason)
  | changes (added removed updated : List String)
  | panicked
  deriving DecidableEq, Repr

/-- The body of the loop of `generateApplyPreview` of `tui.go` for one client. -/
def generateApplyPreviewClient (marshal : Value → String) (w : World) (home : List Char)
    (clientConfig : Value) : PreviewResult :=
  match clientConfig with
  | .obj config =>
    match Obj.index config "path" with
    | .str pathStr =>
      let servers := extractClientServers config
      if servers.length = 0 then .skipped .noServers
      else
        match validateSafePath w.wd pathStr.data home with
        | .error _ => .skipped .unsafePath
        | .ok validatedPath =>
          let existing : Option Obj :=
            match w.files validatedPath with
            | some data => if data.nonEmpty then (unmarshalInto data).2 else some []
            | none => some []
          let existingServers : Option Obj :=
            match Obj.index (existing.getD []) "mcpServers" with
            | .null => some []
            | .obj m => some m
            | _ => none
          match existingServers with
          | none => .panicked
          | some existingServers =>
            .changes
              ((servers.filter (fun kv => (Obj.get existingServers kv.1).isNone)).map Prod.fst)
              ((existingServers.filter (fun kv => (Obj.get servers kv.1).isNone)).map Prod.fst)
              ((servers.filter
                (fun kv =>
                  match Obj.get existingServers kv.1 with
                  | some existingServer =>
                    marshal (Obj.index servers kv.1) != marshal existingServer
                  | none => false)).map Prod.fst)
    | _ => .skipped .noPath
  | _ => .skipped .notMapping

/-- The loop of `generateApplyPreview`: the clients that have change lines, each
with its lines; `none` is a panic. -/
def generateApplyPreviewLoop (marshal : Value → String) (w : World) (home : List Char) :
    List (String × Value) → Option (List (String × PreviewResult))
  | [] => some []
  | (clientName, clientConfig) :: rest =>
    match generateApplyPreviewClient marshal w home clientConfig with
    | .panicked => none
    | .skipped _ => generateApplyPreviewLoop marshal w home rest
    | .changes added removed updated =>
      match generateApplyPreviewLoop marshal w home rest with
      | none => none
      | some shown =>
        if added.length = 0 ∧ removed.length = 0 ∧ updated.length = 0 then some shown
        else some ((clientName, .changes added removed updated) :: shown)

/-! ## Vocabulary of the statements about the batch loops -/

/-- A per-client function instrumented with a log of its calls: every call
appends the client name and the config it was given, and whether it returned
nil. -/
def withLog {σ : Type} (f : σ → String → Obj → List Char → σ × ApplyResult) :
    σ × List (String × Obj × Bool) → String → Obj → List Char →
      (σ × List (String × Obj × Bool)) × ApplyResult :=
  fun s clientName config homeDir =>
    (((f s.1 clientName config homeDir).1,
        s.2 ++ [(clientName, config, decide ((f s.1 clientName config homeDir).2 = .ok))]),
      (f s.1 clientName config homeDir).2)

/-- The clients whose entry is a mapping, in visiting order. -/
def mappingClients (clients : List (String × Value)) : List (String × Obj) :=
  clients.filterMap (fun kv => match kv.2 with | .obj c => some (kv.1, c) | _ => none)

/-- A manifest for the examples: the single client `claude` of `demoConfig`. -/
def demoManifest : Obj := [("clients", .obj [("claude", .obj demoConfig)])]

/-- A per-client function for the examples: it counts its calls in the state
and returns an error for the client named `bad`. -/
def countingFunc : Nat → String → Obj → List Char → Nat × ApplyResult :=
  fun s clientName _ _ => (s + 1, if clientName = "bad" then .failed .noPath else .ok)

/-- A manifest for the examples: a client that succeeds, one that fails, and
one whose entry is not a mapping. -/
def mixedManifest : Obj :=
  [("clients", .obj [("bad", .obj []), ("skipped", .str "oops"), ("good", .obj [])])]

/-- A second manifest client for the examples: one server written to
`~/other.json`. -/
def otherConfig : Obj :=
  [("path", .str "~/other.json"),
   ("servers", .arr [.obj [("name", .str "fs"), ("command", .str "npx")]])]

/-- A manifest for the examples: the client `claude` of `demoConfig`, visited
first, and the client `other` of `otherConfig`. -/
def twoClientManifest : Obj :=
  [("clients", .obj [("claude", .obj demoConfig), ("other", .obj otherConfig)])]

/-- A world for the examples, in which `/home/u/.claude.json` holds the JSON
object `{"mcpServers": []}`, whose `mcpServers` is an array. -/
def arrayWorld : World :=
  { files := fun q =>
      if q = "/home/u/.claude.json".data then some (.json (.obj [("mcpServers", .arr [])]))
      else none
    mkdirOk := fun _ => true
    writeOk := fun _ => true
    wd := none
    encodeOk := fun _ => true
    readBack := fun n => n
    writes := [] }

/-- A world for the examples, in which `/home/u/.claude.json` holds the JSON
document `null`. -/
def nullWorld : World :=
  { files := fun q => if q = "/home/u/.claude.json".data then some (.json .null) else none
    mkdirOk := fun _ => true
    writeOk := fun _ => true
    wd := none
    encodeOk := fun _ => true
    readBack := fun n => n
    writes := [] }

/-- A world for the examples, in which `/home/u/.claude.json` holds bytes that
are not JSON. -/
def garbageWorld : World :=
  { files := fun q => if q = "/home/u/.claude.json".data then some .garbage else none
    mkdirOk := fun _ => true
    writeOk := fun _ => true
    wd := none
    encodeOk := fun _ => true
    readBack := fun n => n
    writes := [] }

/-- A world for the examples, in which `/home/u/.claude.json` is an empty
file. -/
def emptyFileWorld : World :=
  { files := fun q => if q = "/home/u/.claude.json".data then some .empty else none
    mkdirOk := fun _ => true
    writeOk := fun _ => true
    wd := none
    encodeOk := fun _ => true
    readBack := fun n => n
    writes := [] }

/-! ## `processor.go` and `config.go`: import -/

/-- An entry of the output manifest, `{"path": ..., "servers": ...}`; a nil
`servers` is `none`. -/
structure ImportEntry where
  path : String
  servers : Option (List OrderedServer)
  deriving Repr

/-- The map `outputClients` of the import. -/
abbrev OutputClients := List (String × ImportEntry)

/-- Go `v, exists := outputClients[k]`. -/
def OutputClients.get (m : OutputClients) (k : String) : Option ImportEntry := m.lookup k

/-- Go `outputClients[k] = v`. -/
def OutputClients.set : OutputClients → String → ImportEntry → OutputClients
  | [], k, v => [(k, v)]
  | (k', v') :: rest, k, v =>
    if k' = k then (k, v) :: rest else (k', v') :: OutputClients.set rest k v

/-- The errors that `processSingleClientImportWithOutput` returns. -/
inductive ImportError
  | noPath
  | security (e : PathError)
  | read
  | parse
  | noServers
  deriving DecidableEq, Repr

/-- `processSingleClientImportWithOutput` of `processor.go`: the map
`outputClients` afterwards and the returned error (`none` is nil).
`jsonContent` starts as a nil map, which reads like the empty map. -/
def processSingleClientImportWithOutput (w : World) (clientName : String) (config : Obj)
    (homeDir : List Char) (outputClients : OutputClients) :
    OutputClients × Option ImportError :=
  match Obj.index config "path" with
  | .str pathStr =>
    let originalPath := pathStr
    match validateSafePath w.wd pathStr.data homeDir with
    | .error e =>
      (OutputClients.set outputClients clientName { path := originalPath, servers := none },
        some (.security e))
    | .ok validatedPath =>
      match w.files validatedPath with
      | none =>
        (OutputClients.set outputClients clientName { path := originalPath, servers := none },
          some .read)
      | some jsonData =>
        if (unmarshalInto jsonData).1 then
          (OutputClients.set outputClients clientName { path := originalPath, servers := none },
            some .parse)
        else
          match Obj.index ((unmarshalInto jsonData).2.getD []) "mcpServers" with
          | .obj mcpServers =>
            if mcpServers.length = 0 then
              (OutputClients.set outputClients clientName
                  { path := originalPath, servers := none },
                some .noServers)
            else
              (OutputClients.set outputClients clientName
                  { path := originalPath, servers := some (convertMcpServersToYaml mcpServers) },
                none)
          | _ =>
            (OutputClients.set outputClients clientName
                { path := originalPath, servers := none },
              some .noServers)
  | _ => (outputClients, some .noPath)

/-- The loop of `importConfig` of `config.go`, from the map `outputClients` and
the count `importedCount`. -/
def importLoop (w : World) (homeDir : List Char) :
    List (String × Value) → OutputClients → Nat → OutputClients × Nat
  | [], outputClients, importedCount => (outputClients, importedCount)
  | (clientName, clientConfig) :: rest, outputClients, importedCount =>
    match clientConfig with
    | .obj config =>
      match processSingleClientImportWithOutput w clientName config homeDir outputClients with
      | (out1, some _) => importLoop w homeDir rest out1 importedCount
      | (out1, none) => importLoop w homeDir rest out1 (importedCount + 1)
    | _ => importLoop w homeDir rest outputClients importedCount

/-- How `importConfig` ends: the process exits with code 1, or the output
manifest is printed. -/
inductive ImportResult
  | exited
  | printed (outputClients : OutputClients) (importedCount : Nat)
  deriving Repr

/-- `importConfig` of `config.go`.  `yaml.Marshal` of the output is taken to
succeed; `none` is the panic of the unchecked type assertion on `clients`. -/
def importConfig (readFile : String → Option String) (yamlUnmarshal : String → Option Obj)
    (getHomeDir : Option (List Char)) (w : World) (yamlFile : String) : Option ImportResult :=
  match loadAndValidateYAML readFile yamlUnmarshal yamlFile with
  | .error _ => some .exited
  | .ok yamlContent =>
    match getHomeDir with
    | none => some .exited
    | some homeDir =>
      match Obj.index yamlContent "clients" with
      | .obj clients =>
        let r := importLoop w homeDir clients [] 0
        if r.2 = 0 then some .exited else some (.printed r.1 r.2)
      | _ => none

/-! ## `main.go` and `command.go`: command dispatch

The swappable functions `runTUIFunc`, `applyConfigFunc`, `importConfigFunc`
and `osExit` are the effects of a run.  `osExit` ends the run, as `os.Exit`
does. -/

/-- `CommandApply` of `main.go`. -/
def CommandApply : String := "apply"

/-- `CommandImport` of `main.go`. -/
def CommandImport : String := "import"

/-- What a run does, in order: calls of the swappable functions and printed
lines. -/
inductive Effect
  | callTUI
  | callApply (yamlFile : String)
  | callImport (yamlFile : String)
  | print (text : String)
  | exit (code : Int)
  deriving DecidableEq, Repr

/-- `printUsage` of `main.go`. -/
def printUsage : List Effect :=
  [.print "Usage:",
   .print "  mcp-setup apply <yaml-file>   Apply configuration from YAML file",
   .print "  mcp-setup import <yaml-file>  Import existing mcp.json files to YAML format"]

/-- `CLICommandRunner.runCommand` of `command.go`. -/
def runCommand (command yamlFile : String) : List Effect :=
  if command = CommandApply then [.callApply yamlFile]
  else if command = CommandImport then [.callImport yamlFile]
  else .print ("Unknown command: " ++ command) :: (printUsage ++ [.exit 1])

/-- `main` of `main.go` on the argument vector `os.Args`; `none` is the panic
of indexing an empty vector. -/
def main (args : List String) : Option (List Effect) :=
  match args with
  | [] => none
  | [_] => some [.callTUI]
  | [_, command] => some [.print ("Usage: mcp-setup " ++ command ++ " <yaml-file>"), .exit 1]
  | _ :: command :: yamlFile :: _ => some (runCommand command yamlFile)

/-- A manifest client for the examples: one server whose `timeout` is an
integer above 2^53, written to `~/.claude.json`. -/
def bigConfig : Obj :=
  [("path", .str "~/.claude.json"),
   ("servers", .arr
      [.obj [("name", .str "big"), ("command", .str "run"),
        ("timeout", .num 9007199254740993)]])]

/-- A world without files in which the integer 9007199254740993 reads back as
9007199254740992, the nearest float64. -/
def roundingWorld : World :=
  { files := fun _ => none
    mkdirOk := fun _ => true
    writeOk := fun _ => true
    wd := none
    encodeOk := fun _ => true
    readBack := fun n => if n = 9007199254740993 then 9007199254740992 else n
    writes := [] }

/-- A world without files whose encoder refuses every structure, as
`json.MarshalIndent` refuses a structure that holds a value it cannot encode. -/
def refusingWorld : World :=
  { files := fun _ => none
    mkdirOk := fun _ => true
    writeOk := fun _ => true
    wd := none
    encodeOk := fun _ => false
    readBack := fun n => n
    writes := [] }

/-! ## Lemmas on the path model -/

theorem splitSep_of_not_mem (s : List Char) (h : Separator ∉ s) : splitSep s = [s] := by
  induction s with
  | nil => rfl
  | cons c cs ih =>
    have hc : c ≠ Separator := fun e => h (by simp [e])
    have hcs : Separator ∉ cs := fun e => h (List.mem_cons_of_mem _ e)
    simp [splitSep, hc, ih hcs]

theorem splitSep_append_sep (s rest : List Char) (h : Separator ∉ s) :
    splitSep (s ++ Separator :: rest) = s :: splitSep rest := by
  induction s with
  | nil => simp [splitSep]
  | cons c cs ih =>
    have hc : c ≠ Separator := fun e => h (by simp [e])
    have hcs : Separator ∉ cs := fun e => h (List.mem_cons_of_mem _ e)
    simp [splitSep, hc, ih hcs]

theorem splitSep_not_mem (p : List Char) : ∀ s ∈ splitSep p, Separator ∉ s := by
  induction p with
  | nil => simp [splitSep]
  | cons c cs ih =>
    by_cases hc : c = Separator
    · intro s hs
      simp only [splitSep, hc, if_true, List.mem_cons] at hs
      rcases hs with rfl | hs
      · simp
      · exact ih s hs
    · intro s hs
      simp only [splitSep, hc, if_false] at hs
      cases hsp : splitSep cs with
      | nil => simp [hsp] at hs; subst hs; simpa using Ne.symm hc
      | cons t ts =>
        rw [hsp] at hs ih
        simp only [List.mem_cons] at hs
        rcases hs with rfl | hs
        · intro hm
          rcases List.mem_cons.1 hm with e | e
          · exact hc e.symm
          · exact ih t (by simp) e
        · exact ih s (by simp [hs])

theorem splitSep_joinSep (segs : List (List Char)) (hne : segs ≠ [])
    (h : ∀ s ∈ segs, Separator ∉ s) : splitSep (joinSep segs) = segs := by
  induction segs with
  | nil => exact absurd rfl hne
  | cons s ts ih =>
    cases ts with
    | nil => simpa [joinSep] using splitSep_of_not_mem s (h s (by simp))
    | cons t ts =>
      rw [joinSep, splitSep_append_sep _ _ (h s (by simp)),
        ih (by simp) (fun x hx => h x (List.mem_cons_of_mem _ hx))]

theorem joinSep_append (as bs : List (List Char)) (ha : as ≠ []) (hb : bs ≠ []) :
    joinSep (as ++ bs) = joinSep as ++ Separator :: joinSep bs := by
  induction as with
  | nil => exact absurd rfl ha
  | cons a ts ih =>
    cases ts with
    | nil =>
      cases bs with
      | nil => exact absurd rfl hb
      | cons b bs => simp [joinSep]
    | cons t ts =>
      have := ih (by simp)
      simp only [List.cons_append] at this ⊢
      simp [joinSep, this]

theorem cleanStep_elem (r : Bool) (out : List (List Char)) (e : List Char)
    (ho : ∀ x ∈ out, IsElem x) (he : Separator ∉ e) : ∀ x ∈ cleanStep r out e, IsElem x := by
  unfold cleanStep
  split
  · exact ho
  · rename_i h1
    have hE : IsElem e := ⟨fun c => h1 (Or.inl c), fun c => h1 (Or.inr c), he⟩
    split
    · cases out with
      | nil =>
        cases r
        · intro x hx
          simp at hx
          subst hx; exact hE
        · simp
      | cons top rest =>
        simp only
        split
        · cases r
          · intro x hx
            rcases List.mem_cons.1 hx with rfl | hx
            · exact hE
            · exact ho x hx
          · exact ho
        · exact fun x hx => ho x (List.mem_cons_of_mem _ hx)
    · intro x hx
      rcases List.mem_cons.1 hx with rfl | hx
      · exact hE
      · exact ho x hx

theorem cleanStep_name (out : List (List Char)) (e : List Char)
    (ho : ∀ x ∈ out, IsName x) (he : Separator ∉ e) : ∀ x ∈ cleanStep true out e, IsName x := by
  unfold cleanStep
  split
  · exact ho
  · rename_i h1
    have hE : IsElem e := ⟨fun c => h1 (Or.inl c), fun c => h1 (Or.inr c), he⟩
    split
    · cases out with
      | nil => simp
      | cons top rest =>
        simp only
        split
        · exact ho
        · exact fun x hx => ho x (List.mem_cons_of_mem _ hx)
    · rename_i h2
      intro x hx
      rcases List.mem_cons.1 hx with rfl | hx
      · exact ⟨hE, h2⟩
      · exact ho x hx

theorem foldl_cleanStep_elem (r : Bool) (es out : List (List Char))
    (ho : ∀ x ∈ out, IsElem x) (he : ∀ e ∈ es, Separator ∉ e) :
    ∀ x ∈ es.foldl (cleanStep r) out, IsElem x := by
  induction es generalizing out with
  | nil => simpa using ho
  | cons e es ih =>
    simp only [List.foldl_cons]
    exact ih _ (cleanStep_elem r out e ho (he e (by simp)))
      (fun x hx => he x (List.mem_cons_of_mem _ hx))

theorem foldl_cleanStep_name (es out : List (List Char))
    (ho : ∀ x ∈ out, IsName x) (he : ∀ e ∈ es, Separator ∉ e) :
    ∀ x ∈ es.foldl (cleanStep true) out, IsName x := by
  induction es generalizing out with
  | nil => simpa using ho
  | cons e es ih =>
    simp only [List.foldl_cons]
    exact ih _ (cleanStep_name out e ho (he e (by simp)))
      (fun x hx => he x (List.mem_cons_of_mem _ hx))

theorem foldl_cleanStep_names (r : Bool) (es out : List (List Char))
    (he : ∀ e ∈ es, IsName e) : es.foldl (cleanStep r) out = es.reverse ++ out := by
  induction es generalizing out with
  | nil => simp
  | cons e es ih =>
    have hn := he e (by simp)
    have h1 : ¬ (e = [] ∨ e = ['.']) := fun c => c.elim hn.1.1 hn.1.2.1
    have hstep : cleanStep r out e = e :: out := by
      simp [cleanStep, h1, hn.2]
    simp only [List.foldl_cons, hstep, List.reverse_cons, List.append_assoc]
    rw [ih _ (fun x hx => he x (List.mem_cons_of_mem _ hx))]
    simp

/-- A rooted input cleans to a rooted path made of names only. -/
theorem Clean_of_rooted (p : List Char) (hp : p.head? = some Separator) :
    ∃ segs, (∀ s ∈ segs, IsName s) ∧ Clean p = rooted segs := by
  have hne : p ≠ [] := by rintro rfl; simp at hp
  refine ⟨((splitSep p).foldl (cleanStep true) []).reverse, ?_, ?_⟩
  · intro s hs
    exact foldl_cleanStep_name _ [] (by simp) (splitSep_not_mem p) s (List.mem_reverse.1 hs)
  · simp [Clean, hne, hp, rooted]

/-- A rooted path made of names is already clean. -/
theorem Clean_rooted (segs : List (List Char)) (h : ∀ s ∈ segs, IsName s) :
    Clean (rooted segs) = rooted segs := by
  have hsplit : (splitSep (rooted segs)).foldl (cleanStep true) [] = segs.reverse := by
    cases segs with
    | nil => simp [rooted, joinSep, splitSep, cleanStep]
    | cons s ts =>
      have h1 : splitSep (joinSep (s :: ts)) = s :: ts :=
        splitSep_joinSep _ (by simp) (fun x hx => (h x hx).1.2.2)
      have h2 : splitSep (rooted (s :: ts)) = [] :: s :: ts := by
        simp [rooted, splitSep, h1]
      rw [h2, List.foldl_cons]
      have h3 : cleanStep true [] [] = [] := by simp [cleanStep]
      rw [h3, foldl_cleanStep_names true _ _ h]
      simp
  have hsplit2 : (splitSep (Separator :: joinSep segs)).foldl (cleanStep true) [] =
      segs.reverse := hsplit
  simp [Clean, rooted, hsplit2]

theorem joinSep_cons_head (s : List Char) (ts : List (List Char)) (hs : s ≠ []) :
    (joinSep (s :: ts)).head? = s.head? := by
  cases s with
  | nil => exact absurd rfl hs
  | cons c cs => cases ts <;> simp [joinSep]

theorem relElems_rooted (segs : List (List Char)) (h : ∀ s ∈ segs, IsName s) :
    relElems (rooted segs) = [] :: segs := by
  cases segs with
  | nil => simp [relElems, rooted, joinSep]
  | cons s ts =>
    have hs := h s (by simp)
    have h1 : splitSep (joinSep (s :: ts)) = s :: ts :=
      splitSep_joinSep _ (by simp) (fun x hx => (h x hx).1.2.2)
    have h2 : joinSep (s :: ts) ≠ [] := by
      intro c
      have := joinSep_cons_head s ts hs.1.1
      rw [c] at this
      cases s with
      | nil => exact hs.1.1 rfl
      | cons a as => simp at this
    simp [relElems, rooted, splitSep, h1, h2]

theorem IsAbs_Clean (p : List Char) (h : IsAbs (Clean p) = true) :
    p.head? = some Separator := by
  by_cases hp : p = []
  · subst hp
    simp [Clean, IsAbs, Separator] at h
  · by_cases hr : p.head? = some Separator
    · exact hr
    · exfalso
      have helem := foldl_cleanStep_elem false (splitSep p) [] (by simp) (splitSep_not_mem p)
      simp only [Clean, hp, hr, if_false, decide_False] at h
      cases hout : ((splitSep p).foldl (cleanStep false) []).reverse with
      | nil => simp [hout, IsAbs, Separator] at h
      | cons s ts =>
        have hs : IsElem s := helem s (List.mem_reverse.1 (by rw [hout]; simp))
        simp only [hout, IsAbs] at h
        rw [if_neg (by simp), joinSep_cons_head s ts hs.1] at h
        cases s with
        | nil => exact hs.1 rfl
        | cons c cs =>
          simp at h
          exact hs.2.2 (by simp [h])

theorem dropCommon_spec (hs rs : List (List Char)) :
    ∃ c, hs = c ++ (dropCommon hs rs).1 ∧ rs = c ++ (dropCommon hs rs).2 := by
  induction hs generalizing rs with
  | nil => exact ⟨[], by simp [dropCommon]⟩
  | cons b bs ih =>
    cases rs with
    | nil => exact ⟨[], by simp [dropCommon]⟩
    | cons t ts =>
      by_cases e : t = b
      · obtain ⟨c, h1, h2⟩ := ih ts
        refine ⟨b :: c, ?_, ?_⟩
        · simp only [dropCommon, e, if_true, List.cons_append]
          exact congrArg _ h1
        · simp only [dropCommon, e, if_true, List.cons_append]
          exact congrArg _ h2
      · exact ⟨[], by simp [dropCommon, e]⟩

theorem HasPrefix_dotdot (n : Nat) (rt : List (List Char)) (hn : 0 < n) :
    HasPrefix (joinSep (List.replicate n dotdot ++ rt)) dotdot = true := by
  obtain ⟨m, rfl⟩ : ∃ m, n = m + 1 := ⟨n - 1, by omega⟩
  simp only [List.replicate_succ, List.cons_append]
  cases hrest : List.replicate m dotdot ++ rt with
  | nil => simp [joinSep, HasPrefix, dotdot]
  | cons t ts => simp [joinSep, HasPrefix, dotdot]

/-- What `Rel` answers for two clean rooted paths. -/
theorem Rel_rooted (hs rs : List (List Char)) (hh : ∀ s ∈ hs, IsName s)
    (hr : ∀ s ∈ rs, IsName s) (rel : List Char) (h : Rel (rooted hs) (rooted rs) = some rel)
    (hpre : HasPrefix rel dotdot = false) : ∃ rt, rs = hs ++ rt := by
  by_cases heq : rooted rs = rooted hs
  · refine ⟨[], ?_⟩
    have := congrArg relElems heq
    rw [relElems_rooted _ hh, relElems_rooted _ hr] at this
    simpa using this
  · have hne : rooted hs ≠ ['.'] := by simp [rooted, Separator]
    have habs : ∀ segs, IsAbs (rooted segs) = true := by intro segs; simp [IsAbs, rooted]
    simp only [Rel, Clean_rooted _ hh, Clean_rooted _ hr, heq, if_false, hne, habs,
      relElems_rooted _ hh, relElems_rooted _ hr, dropCommon, if_true] at h
    obtain ⟨c, h1, h2⟩ := dropCommon_spec hs rs
    split at h
    · simp at h
    · split at h
      · simp at h
      · simp only [Option.some.injEq] at h
        cases hb : (dropCommon hs rs).1 with
        | nil =>
          rw [hb, List.append_nil] at h1
          exact ⟨(dropCommon hs rs).2, by rw [← h1] at h2; exact h2⟩
        | cons b bs =>
          exfalso
          rw [← h, hb] at hpre
          have := HasPrefix_dotdot (b :: bs).length (dropCommon hs rs).2 (by simp)
          rw [this] at hpre
          exact Bool.noConfusion hpre

theorem Within_rooted (hs rt : List (List Char)) (hr : ∀ s ∈ rt, IsName s) :
    Within (rooted hs) (rooted (hs ++ rt)) := by
  cases hs with
  | nil => exact Or.inr (Or.inl (by simp [rooted, joinSep]))
  | cons a as =>
    cases rt with
    | nil => exact Or.inl (by simp)
    | cons b bs =>
      refine Or.inr (Or.inr ?_)
      rw [rooted, rooted, joinSep_append _ _ (by simp) (by simp)]
      exact ⟨joinSep (b :: bs), by simp⟩

/-- The path that `validateSafePath` tests against the home directory is a
clean rooted path whenever the home directory is absolute. -/
theorem resolved_rooted (p h : List Char) (habs : IsAbs h = true) :
    ∃ rs, (∀ s ∈ rs, IsName s) ∧
      (match CutPrefix (Clean p) ['~'] with
        | some after => Join [h, after]
        | none => if !IsAbs (Clean p) then Join [h, Clean p] else Clean p) = rooted rs := by
  have hne : h ≠ [] := by rintro rfl; simp [IsAbs] at habs
  have hjoin : ∀ x, ∃ rs, (∀ s ∈ rs, IsName s) ∧ Join [h, x] = rooted rs := by
    intro x
    have hd : List.dropWhile (fun e => decide (e = [])) [h, x] = [h, x] := by
      simp [List.dropWhile, hne]
    have : Join [h, x] = Clean (h ++ Separator :: x) := by
      simp [Join, hd, joinSep]
    rw [this]
    apply Clean_of_rooted
    cases h with
    | nil => exact absurd rfl hne
    | cons c cs => simpa [IsAbs] using habs
  split
  · exact hjoin _
  · by_cases ha : IsAbs (Clean p) = true
    · simp only [ha, Bool.not_true, if_false]
      exact Clean_of_rooted p (IsAbs_Clean p ha)
    · simp only [ha, Bool.not_false, if_true]
      exact hjoin _
      

/-! ## Theorems -/

/-- C1: for every raw path and every clean absolute home directory,
`validateSafePath` either fails or returns a clean absolute path that is the
home directory itself or continues it with a separator (the root contains
every absolute path); it never returns a path outside the home directory. -/
theorem validateSafePath_within_home (wd : Option (List Char)) (p h r : List Char)
    (habs : IsAbs h = true) (hclean : Clean h = h)
    (hok : validateSafePath wd p h = .ok r) :
    IsAbs r = true ∧ Clean r = r ∧ Within h r := by
  obtain ⟨hs, hhs, hh⟩ := Clean_of_rooted h (by simpa [IsAbs] using habs)
  rw [hclean] at hh
  obtain ⟨rs, hrs, hres⟩ := resolved_rooted p h habs
  unfold validateSafePath at hok
  split at hok
  · exact absurd hok (by simp)
  · simp only [hres] at hok
    split at hok
    · exact absurd hok (by simp)
    · rename_i rel hrel
      split at hok
      · exact absurd hok (by simp)
      · rename_i hpre
        have hA : Abs wd (rooted rs) = some (rooted rs) := by
          simp [Abs, IsAbs, rooted, Clean_rooted rs hrs]
          simpa [rooted] using Clean_rooted rs hrs
        rw [hA] at hok
        simp only [Except.ok.injEq] at hok
        subst hok
        rw [hh] at hrel
        obtain ⟨rt, rfl⟩ := Rel_rooted hs rs hhs hrs rel hrel (by simpa using hpre)
        refine ⟨by simp [IsAbs, rooted], Clean_rooted _ hrs, ?_⟩
        rw [hh]
        exact Within_rooted hs rt (fun s hs => hrs s (List.mem_append_right _ hs))

/-- C1, at concrete inputs: `~/.claude.json` resolves beneath `/home/u`, while
`../../etc/passwd` and `/etc/passwd` are refused. -/
theorem validateSafePath_within_home_witness :
    validateSafePath none "~/.claude.json".data "/home/u".data
        = .ok "/home/u/.claude.json".data ∧
      Within "/home/u".data "/home/u/.claude.json".data ∧
      validateSafePath none "../../etc/passwd".data "/home/u".data = .error .outsideHome ∧
      validateSafePath none "/etc/passwd".data "/home/u".data = .error .outsideHome :=
  ⟨by decide,
   (validateSafePath_within_home none "~/.claude.json".data "/home/u".data
      "/home/u/.claude.json".data (by decide) (by decide) (by decide)).2.2,
   by decide, by decide⟩

/-! ## Lemmas on maps -/

theorem Obj.get_nil (k : String) : Obj.get [] k = none := rfl

theorem Obj.get_cons (k' : String) (v' : Value) (rest : Obj) (k : String) :
    Obj.get ((k', v') :: rest) k = if k = k' then some v' else Obj.get rest k := by
  by_cases h : k = k'
  · subst h; simp [Obj.get, List.lookup]
  · have : (k == k') = false := by simpa using h
    simp [Obj.get, List.lookup, this, h]

theorem Obj.get_set (m : Obj) (k : String) (v : Value) (k' : String) :
    Obj.get (Obj.set m k v) k' = if k' = k then some v else Obj.get m k' := by
  induction m with
  | nil => simp [Obj.set, Obj.get_cons, Obj.get_nil]
  | cons kv rest ih =>
    obtain ⟨a, b⟩ := kv
    by_cases h : a = k
    · subst h
      simp only [Obj.set, if_true, Obj.get_cons]
      split <;> simp_all
    · simp only [Obj.set, h, if_false, Obj.get_cons, ih]
      by_cases h1 : k' = a
      · have : k' ≠ k := fun e => h (h1 ▸ e)
        simp [h1, h]
      · simp [h1]

theorem Obj.get_eq_none_iff (m : Obj) (k : String) : Obj.get m k = none ↔ k ∉ Obj.keys m := by
  induction m with
  | nil => simp [Obj.get_nil, Obj.keys]
  | cons kv rest ih =>
    obtain ⟨a, b⟩ := kv
    rw [Obj.get_cons]
    by_cases h : k = a
    · simp [h, Obj.keys]
    · simp only [h, if_false, ih]
      simp [Obj.keys, h]

theorem Obj.get_filter (m : Obj) (p : String → Bool) (k : String) :
    Obj.get (m.filter (fun kv => p kv.1)) k = if p k then Obj.get m k else none := by
  induction m with
  | nil => simp [Obj.get_nil]
  | cons kv rest ih =>
    obtain ⟨a, b⟩ := kv
    by_cases hp : p a = true
    · rw [List.filter_cons_of_pos (by simpa using hp), Obj.get_cons, Obj.get_cons, ih]
      by_cases h : k = a
      · subst h; simp [hp]
      · simp [h]
    · rw [List.filter_cons_of_neg (by simpa using hp), Obj.get_cons, ih]
      by_cases h : k = a
      · subst h
        simp [hp]
      · simp [h]

theorem Obj.keys_set (m : Obj) (k : String) (v : Value) :
    Obj.keys (Obj.set m k v) = if k ∈ Obj.keys m then Obj.keys m else Obj.keys m ++ [k] := by
  induction m with
  | nil => simp [Obj.set, Obj.keys]
  | cons kv rest ih =>
    obtain ⟨a, b⟩ := kv
    by_cases h : a = k
    · subst h
      simp [Obj.set, Obj.keys]
    · have h' : ¬ k = a := fun e => h e.symm
      have ih' : List.map Prod.fst (Obj.set rest k v) =
          if k ∈ List.map Prod.fst rest then List.map Prod.fst rest
          else List.map Prod.fst rest ++ [k] := ih
      simp only [Obj.set, h, if_false, Obj.keys, List.map_cons, List.mem_cons, h', false_or, ih']
      split <;> simp

theorem Obj.keys_set_nodup (m : Obj) (k : String) (v : Value) (h : (Obj.keys m).Nodup) :
    (Obj.keys (Obj.set m k v)).Nodup := by
  rw [Obj.keys_set]
  split
  · exact h
  · rename_i hk
    exact List.Nodup.append h (by simp) (by simpa using hk)

theorem Obj.set_of_not_mem (m : Obj) (k : String) (v : Value) (h : k ∉ Obj.keys m) :
    Obj.set m k v = m ++ [(k, v)] := by
  induction m with
  | nil => rfl
  | cons kv rest ih =>
    obtain ⟨a, b⟩ := kv
    have h1 : a ≠ k := fun e => h (by simp [Obj.keys, e])
    have h2 : k ∉ Obj.keys rest := fun e => h (by simp [Obj.keys] at e ⊢; exact Or.inr e)
    simp [Obj.set, h1, ih h2]

theorem Obj.index_eq (m : Obj) (k : String) : Obj.index m k = (Obj.get m k).getD .null := rfl

/-! ## Lemmas on `extractClientServers` -/

/-- The step of the loop of `extractClientServers`. -/
theorem extractClientServers_eq (config : Obj) (l : List Value)
    (h : Obj.index config "servers" = .arr l) :
    extractClientServers config =
      l.foldl
        (fun servers serverData =>
          match processSingleServerConfig serverData with
          | some (name, serverConfig) => Obj.set servers name (.obj serverConfig)
          | none => servers)
        [] := by
  simp [extractClientServers, h]

theorem processSingleServerConfig_eq_some (x : Value) (n : String) (c : Obj) :
    processSingleServerConfig x = some (n, c) ↔
      ∃ server, x = .obj server ∧ Obj.index server "name" = .str n ∧ n ≠ "" ∧
        c = server.filter (fun kv => kv.1 ≠ "name") := by
  constructor
  · intro h
    unfold processSingleServerConfig at h
    split at h
    · rename_i server
      split at h
      · rename_i name hname
        split at h
        · exact absurd h (by simp)
        · rename_i hne
          simp only [Option.some.injEq, Prod.mk.injEq] at h
          obtain ⟨rfl, rfl⟩ := h
          exact ⟨server, rfl, hname, hne, rfl⟩
      · exact absurd h (by simp)
    · exact absurd h (by simp)
  · rintro ⟨server, rfl, hname, hne, rfl⟩
    simp [processSingleServerConfig, hname, hne]

theorem foldl_extract_get (l : List Value) (acc : Obj) (n : String) :
    Obj.get (l.foldl
        (fun servers serverData =>
          match processSingleServerConfig serverData with
          | some (name, serverConfig) => Obj.set servers name (.obj serverConfig)
          | none => servers) acc) n =
      match lastConfig n l with
      | some c => some (.obj c)
      | none => Obj.get acc n := by
  induction l generalizing acc with
  | nil => simp [lastConfig]
  | cons x xs ih =>
    rw [List.foldl_cons, ih, lastConfig]
    cases hl : lastConfig n xs with
    | some c => rfl
    | none =>
      simp only
      cases hp : processSingleServerConfig x with
      | none => rfl
      | some mc =>
        obtain ⟨m, c⟩ := mc
        simp only [Obj.get_set]
        by_cases e : m = n
        · subst e; simp
        · have e' : ¬ n = m := fun h => e h.symm
          simp [e, e']

theorem foldl_extract_nodup (l : List Value) (acc : Obj) (h : (Obj.keys acc).Nodup) :
    (Obj.keys (l.foldl
        (fun servers serverData =>
          match processSingleServerConfig serverData with
          | some (name, serverConfig) => Obj.set servers name (.obj serverConfig)
          | none => servers) acc)).Nodup := by
  induction l generalizing acc with
  | nil => simpa using h
  | cons x xs ih =>
    rw [List.foldl_cons]
    apply ih
    cases hp : processSingleServerConfig x with
    | none => exact h
    | some mc => exact Obj.keys_set_nodup _ _ _ h

theorem lastConfig_append (n : String) (a b : List Value) :
    lastConfig n (a ++ b) =
      match lastConfig n b with
      | some c => some c
      | none => lastConfig n a := by
  induction a with
  | nil =>
    cases hb : lastConfig n b <;> simp [lastConfig, hb]
  | cons x xs ih =>
    have hstep : lastConfig n (x :: xs ++ b) =
        match lastConfig n (xs ++ b) with
        | some c => some c
        | none =>
          match processSingleServerConfig x with
          | some (m, c) => if m = n then some c else none
          | none => none := rfl
    rw [hstep, ih, lastConfig]
    cases hb : lastConfig n b <;> simp

theorem lastConfig_isSome_iff (n : String) (l : List Value) :
    (∃ c, lastConfig n l = some c) ↔ ∃ x ∈ l, ∃ c, processSingleServerConfig x = some (n, c) := by
  induction l with
  | nil => simp [lastConfig]
  | cons x xs ih =>
    simp only [lastConfig, List.mem_cons, exists_eq_or_imp]
    cases hl : lastConfig n xs with
    | some c =>
      have := ih.1 ⟨c, hl⟩
      simp only [Option.some.injEq, exists_eq', true_iff]
      exact Or.inr this
    | none =>
      have hno : ¬ ∃ x ∈ xs, ∃ c, processSingleServerConfig x = some (n, c) := by
        intro h
        obtain ⟨c, hc⟩ := ih.2 h
        rw [hl] at hc
        exact absurd hc (by simp)
      simp only [hno, or_false]
      cases hp : processSingleServerConfig x with
      | none => simp
      | some mc =>
        obtain ⟨m, c⟩ := mc
        by_cases e : m = n
        · subst e; simp
        · simp [e]

theorem extractClientServers_keys_nodup (config : Obj) :
    (Obj.keys (extractClientServers config)).Nodup := by
  unfold extractClientServers
  split
  · exact foldl_extract_nodup _ [] (by simp [Obj.keys])
  · simp [Obj.keys]

/-- C6: `extractClientServers` gives the empty map when `servers` is not a
list.  When it is a list, the result is a map whose keys are exactly the
non-empty string names carried by the object entries of the list, and the value
under a name is the field map of the last entry with that name, without its
`name` key and with every other field unchanged. -/
theorem extractClientServers_spec (config : Obj) :
    ((∀ l, Obj.index config "servers" ≠ .arr l) → extractClientServers config = []) ∧
    (∀ l, Obj.index config "servers" = .arr l →
      (Obj.keys (extractClientServers config)).Nodup ∧
      (∀ n, n ∈ Obj.keys (extractClientServers config) ↔
        n ≠ "" ∧ ∃ server, Value.obj server ∈ l ∧ Obj.index server "name" = .str n) ∧
      (∀ n pre server post, l = pre ++ Value.obj server :: post →
        Obj.index server "name" = .str n → n ≠ "" →
        (∀ s, Value.obj s ∈ post → Obj.index s "name" ≠ .str n) →
        ∃ c, Obj.get (extractClientServers config) n = some (.obj c) ∧
          ∀ k, Obj.get c k = if k = "name" then none else Obj.get server k)) := by
  refine ⟨?_, ?_⟩
  · intro h
    unfold extractClientServers
    split
    · rename_i l hl
      exact absurd hl (h l)
    · rfl
  · intro l hl
    refine ⟨extractClientServers_keys_nodup config, ?_, ?_⟩
    · intro n
      have hget := foldl_extract_get l [] n
      rw [← extractClientServers_eq config l hl] at hget
      have hmem : n ∈ Obj.keys (extractClientServers config) ↔ ∃ c, lastConfig n l = some c := by
        rw [← not_iff_not, ← Obj.get_eq_none_iff, hget]
        cases lastConfig n l <;> simp [Obj.get_nil]
      rw [hmem, lastConfig_isSome_iff]
      constructor
      · rintro ⟨x, hx, c, hc⟩
        obtain ⟨server, rfl, hname, hne, -⟩ := (processSingleServerConfig_eq_some x n c).1 hc
        exact ⟨hne, server, hx, hname⟩
      · rintro ⟨hne, server, hx, hname⟩
        exact ⟨_, hx, _, (processSingleServerConfig_eq_some _ n _).2 ⟨server, rfl, hname, hne, rfl⟩⟩
    · intro n pre server post hsplit hname hne hpost
      have hget := foldl_extract_get l [] n
      rw [← extractClientServers_eq config l hl] at hget
      have hnone : lastConfig n post = none := by
        cases hc : lastConfig n post with
        | none => rfl
        | some c =>
          exfalso
          obtain ⟨x, hx, c', hc'⟩ := (lastConfig_isSome_iff n post).1 ⟨c, hc⟩
          obtain ⟨s, rfl, hs, -, -⟩ := (processSingleServerConfig_eq_some x n c').1 hc'
          exact hpost s hx hs
      have hlast : lastConfig n l = some (server.filter (fun kv => kv.1 ≠ "name")) := by
        rw [hsplit, lastConfig_append, lastConfig, hnone]
        simp [processSingleServerConfig, hname, hne]
      rw [hlast] at hget
      refine ⟨_, hget, ?_⟩
      intro k
      have := Obj.get_filter server (fun a => decide (a ≠ "name")) k
      simp only [decide_not] at this
      simp only [decide_not]
      rw [this]
      by_cases hk : k = "name" <;> simp [hk]

/-! ## Lemmas on `convertMcpServersToYaml` -/

theorem stringArgs_eq (args : List Value) : stringArgs args = args.map argString := by
  unfold stringArgs
  apply List.map_congr_left
  intro a _
  cases a <;> rfl

theorem stringArgs_map_str (a : List String) : stringArgs (a.map Value.str) = a := by
  rw [stringArgs_eq]
  induction a with
  | nil => rfl
  | cons x xs ih => simp only [List.map_cons, ih, argString]

theorem envMap_map_str (e : List (String × String)) :
    envMap (e.map (fun kv => (kv.1, Value.str kv.2))) = e := by
  induction e with
  | nil => rfl
  | cons x xs ih =>
    have : envMap (List.map (fun kv => (kv.1, Value.str kv.2)) xs) = xs := ih
    unfold envMap at this ⊢
    rw [List.map_cons, List.filterMap_cons_some (by rfl), this]

theorem stringArgs_length (args : List Value) : (stringArgs args).length = args.length := by
  simp [stringArgs]

theorem stringArgs_getElem? (args : List Value) (i : Nat) (a : Value)
    (h : args[i]? = some a) : (stringArgs args)[i]? = some (argString a) := by
  simp [stringArgs_eq, List.getElem?_map, h]

/-- C7 fails as stated: for `args = ["a", 1, "b"]` the converted arguments are
`["a", "", "b"]`, three elements with an empty string in the place of the
number, not `["a", "b"]`. -/
theorem convert_args_counterexample :
    (convertMcpServersToYaml
        [("s", .obj [("args", .arr [.str "a", .num 1, .str "b"])])]).map (fun s => s.Args)
      = [some ["a", "", "b"]] ∧
    (convertMcpServersToYaml
        [("s", .obj [("args", .arr [.str "a", .num 1, .str "b"])])]).map (fun s => s.Args)
      ≠ [some ["a", "b"]] := by
  have h : (convertMcpServersToYaml
        [("s", .obj [("args", .arr [.str "a", .num 1, .str "b"])])]).map (fun s => s.Args)
      = [some ["a", "", "b"]] := rfl
  exact ⟨h, by rw [h]; decide⟩

/-- C7, amended: for every file-map entry whose `args` field is a list, the
`ServerSpec` that `convertMcpServersToYaml` produces for it has an argument list
of the same length as the source list, holding at each position the source
element when that element is a string and the empty string otherwise. -/
theorem convert_args_positional (m : Obj) (name : String) (server : Obj) (args : List Value)
    (hmem : (name, Value.obj server) ∈ m) (hargs : Obj.index server "args" = .arr args) :
    ∃ spec out, spec ∈ convertMcpServersToYaml m ∧ spec.Name = name ∧
      spec.Args = some out ∧ out.length = args.length ∧
      (∀ (i : Nat) (s : String), args[i]? = some (.str s) → out[i]? = some s) ∧
      (∀ (i : Nat) (a : Value), args[i]? = some a → (∀ s, a ≠ .str s) → out[i]? = some "") := by
  refine ⟨_, stringArgs args, List.mem_filterMap.2 ⟨_, hmem, rfl⟩, rfl, ?_,
    stringArgs_length args, ?_, ?_⟩
  · simp [hargs]
  · intro i s h
    exact stringArgs_getElem? args i _ h
  · intro i a h hs
    rw [stringArgs_getElem? args i a h]
    cases a <;> first | rfl | exact absurd rfl (hs _)

/-- C7, amended, at the input of the claim: `["a", 1, "b"]` gives a list of
length three. -/
theorem convert_args_positional_witness :
    ∃ spec out, spec ∈ convertMcpServersToYaml
        [("s", .obj [("args", .arr [.str "a", .num 1, .str "b"])])] ∧ spec.Name = "s" ∧
      spec.Args = some out ∧ out.length = [Value.str "a", .num 1, .str "b"].length ∧
      (∀ (i : Nat) (s : String),
        [Value.str "a", .num 1, .str "b"][i]? = some (.str s) → out[i]? = some s) ∧
      (∀ (i : Nat) (a : Value), [Value.str "a", .num 1, .str "b"][i]? = some a →
        (∀ s, a ≠ .str s) → out[i]? = some "") :=
  convert_args_positional [("s", .obj [("args", .arr [.str "a", .num 1, .str "b"])])] "s"
    [("args", .arr [.str "a", .num 1, .str "b"])] [.str "a", .num 1, .str "b"]
    (by simp) rfl

theorem Obj.get_append (a b : Obj) (k : String) :
    Obj.get (a ++ b) k = match Obj.get a k with | some v => some v | none => Obj.get b k := by
  induction a with
  | nil => simp [Obj.get_nil]
  | cons kv rest ih =>
    obtain ⟨x, y⟩ := kv
    rw [List.cons_append, Obj.get_cons, Obj.get_cons, ih]
    by_cases h : k = x <;> simp [h]

/-- The fields that `recoverFields` rebuilds from a converted plain object are
the fields of the object. -/
theorem recoverFields_convertEntry (name : String) (server : Obj) (h : PlainFields server) :
    ∃ spec, convertEntry name (.obj server) = some spec ∧ spec.Name = name ∧
      ∀ k, Obj.get (recoverFields spec) k = Obj.get server k := by
  refine ⟨_, rfl, rfl, ?_⟩
  intro k
  obtain ⟨hc, ha, he⟩ := h
  have hextra := Obj.get_filter server
    (fun a => decide (a ≠ "command" ∧ a ≠ "args" ∧ a ≠ "env")) k
  simp only [recoverFields, Obj.get_append, hextra]
  have hs1 : ∀ a : List String, stringArgs (a.map Value.str) = a := stringArgs_map_str
  have hs2 : ∀ e : List (String × String),
      envMap (e.map (fun kv => (kv.1, Value.str kv.2))) = e := envMap_map_str
  rcases hc with hc | ⟨c, hcne, hc⟩ <;> rcases ha with ha | ⟨a, ha⟩ <;>
    rcases he with he | ⟨e, he⟩ <;>
    by_cases k1 : k = "command" <;> by_cases k2 : k = "args" <;> by_cases k3 : k = "env" <;>
    simp_all [Obj.index_eq, Obj.get_cons, Obj.get_nil]

/-- C8 fails as stated: a command that is not a string, an `args` that is not a
list, an `env` that is not an object and an empty-string command all convert to
the same `ServerSpec` as the object without that field, and a map value that is
not an object yields no `ServerSpec` at all, although none of these maps holds a
non-string `args` element or a non-string `env` value. -/
theorem convert_lossy_counterexample :
    (convertMcpServersToYaml [("s", .obj [("command", .num 5)])]
        = convertMcpServersToYaml [("s", .obj [])] ∧
      Obj.get [("command", Value.num 5)] "command" ≠ Obj.get [] "command") ∧
    (convertMcpServersToYaml [("s", .obj [("args", .str "x")])]
        = convertMcpServersToYaml [("s", .obj [])] ∧
      Obj.get [("args", Value.str "x")] "args" ≠ Obj.get [] "args") ∧
    (convertMcpServersToYaml [("s", .obj [("env", .num 3)])]
        = convertMcpServersToYaml [("s", .obj [])] ∧
      Obj.get [("env", Value.num 3)] "env" ≠ Obj.get [] "env") ∧
    (convertMcpServersToYaml [("s", .obj [("command", .str "")])]
        = convertMcpServersToYaml [("s", .obj [])] ∧
      Obj.get [("command", Value.str "")] "command" ≠ Obj.get [] "command") ∧
    convertMcpServersToYaml [("s", .num 5)] = [] := by
  refine ⟨⟨rfl, ?_⟩, ⟨rfl, ?_⟩, ⟨rfl, ?_⟩, ⟨rfl, ?_⟩, rfl⟩ <;>
    simp [Obj.get_cons, Obj.get_nil]

/-- C8, amended: for every file map in which each value is an object whose
`command`, when present, is a non-empty string, whose `args`, when present, is a
list of strings and whose `env`, when present, is an object of strings,
`convertMcpServersToYaml` yields one `ServerSpec` per entry, named by its key,
and every field of the source object is recovered from that `ServerSpec`. -/
theorem convert_recover (m : Obj)
    (hm : ∀ kv ∈ m, ∃ server, kv.2 = .obj server ∧ PlainFields server) :
    List.Forall₂
      (fun spec kv => spec.Name = kv.1 ∧ ∃ server, kv.2 = Value.obj server ∧
        ∀ k, Obj.get (recoverFields spec) k = Obj.get server k)
      (convertMcpServersToYaml m) m := by
  induction m with
  | nil => exact List.Forall₂.nil
  | cons kv rest ih =>
    obtain ⟨name, v⟩ := kv
    obtain ⟨server, hv, hplain⟩ := hm (name, v) (by simp)
    simp only at hv
    subst hv
    obtain ⟨spec, hspec, hname, hrec⟩ := recoverFields_convertEntry name server hplain
    have hconv : convertMcpServersToYaml ((name, Value.obj server) :: rest) =
        spec :: convertMcpServersToYaml rest := by
      simp only [convertMcpServersToYaml, List.filterMap_cons, hspec]
    rw [hconv]
    exact List.Forall₂.cons ⟨hname, server, rfl, hrec⟩
      (ih (fun kv hkv => hm kv (List.mem_cons_of_mem _ hkv)))

/-- C8, amended, at a concrete file map: a server with a command, two arguments,
an environment and an extra field. -/
theorem convert_recover_witness :
    List.Forall₂
      (fun spec kv => spec.Name = kv.1 ∧ ∃ server, kv.2 = Value.obj server ∧
        ∀ k, Obj.get (recoverFields spec) k = Obj.get server k)
      (convertMcpServersToYaml
        [("fs", .obj [("type", .str "stdio"), ("command", .str "npx"),
          ("args", .arr [.str "-y", .str "server"]), ("env", .obj [("KEY", .str "v")])])])
      [("fs", .obj [("type", .str "stdio"), ("command", .str "npx"),
          ("args", .arr [.str "-y", .str "server"]), ("env", .obj [("KEY", .str "v")])])] :=
  convert_recover _ (by
    intro kv hkv
    simp only [List.mem_singleton] at hkv
    subst hkv
    exact ⟨_, rfl, Or.inr ⟨"npx", by decide, rfl⟩, Or.inr ⟨["-y", "server"], rfl⟩,
      Or.inr ⟨[("KEY", "v")], rfl⟩⟩)

/-! ## Round trip of plain servers -/

theorem processSingleServerConfig_entry (s : PlainServer) (h : s.name ≠ "") :
    processSingleServerConfig s.entry = some (s.name, s.fields) := by
  obtain ⟨name, command, args, env⟩ := s
  simp only at h
  cases command <;> cases args <;> cases env <;>
    simp [processSingleServerConfig, PlainServer.entry, PlainServer.fields, Obj.index_eq,
      Obj.get_cons, h]

theorem convertEntry_fields (s : PlainServer) :
    convertEntry s.name (.obj s.fields) = some s.spec := by
  obtain ⟨name, command, args, env⟩ := s
  have hs1 : ∀ a : List String, stringArgs (a.map Value.str) = a := stringArgs_map_str
  have hs2 : ∀ e : List (String × String),
      envMap (e.map (fun kv => (kv.1, Value.str kv.2))) = e := envMap_map_str
  cases command <;> cases args <;> cases env <;>
    simp [convertEntry, PlainServer.fields, PlainServer.spec, Obj.index_eq, Obj.get_cons,
      Obj.get_nil, hs1, hs2]

theorem foldl_extract_entries (ss : List PlainServer) (acc : Obj)
    (hnodup : (ss.map (fun s => s.name)).Nodup) (hne : ∀ s ∈ ss, s.name ≠ "")
    (hacc : ∀ s ∈ ss, s.name ∉ Obj.keys acc) :
    (ss.map PlainServer.entry).foldl
        (fun servers serverData =>
          match processSingleServerConfig serverData with
          | some (name, serverConfig) => Obj.set servers name (.obj serverConfig)
          | none => servers) acc =
      acc ++ ss.map (fun s => (s.name, Value.obj s.fields)) := by
  induction ss generalizing acc with
  | nil => simp
  | cons s rest ih =>
    have hs := hne s (by simp)
    have hnd : s.name ∉ rest.map (fun s => s.name) ∧ (rest.map (fun s => s.name)).Nodup := by
      rw [List.map_cons] at hnodup
      exact List.nodup_cons.1 hnodup
    rw [List.map_cons, List.foldl_cons, processSingleServerConfig_entry s hs]
    simp only
    rw [Obj.set_of_not_mem _ _ _ (hacc s (by simp)), ih _ hnd.2
      (fun x hx => hne x (List.mem_cons_of_mem _ hx))]
    · simp
    · intro x hx hmem
      simp only [Obj.keys, List.map_append, List.map_cons, List.map_nil, List.mem_append,
        List.mem_singleton] at hmem
      rcases hmem with hmem | hmem
      · exact hacc x (List.mem_cons_of_mem _ hx) hmem
      · exact hnd.1 (List.mem_map.2 ⟨x, hx, hmem⟩)


theorem convert_fields (ss : List PlainServer) :
    convertMcpServersToYaml (ss.map (fun s => (s.name, Value.obj s.fields))) =
      ss.map PlainServer.spec := by
  induction ss with
  | nil => rfl
  | cons s rest ih =>
    have := convertEntry_fields s
    simp only [convertMcpServersToYaml, List.map_cons, List.filterMap_cons, this] at ih ⊢
    rw [ih]

/-- C5: for every list of plain servers with pairwise distinct non-empty names,
`extractClientServers` followed by `convertMcpServersToYaml` yields exactly one
`ServerSpec` per original entry, with the same name, command, arguments and
environment and an empty extra, in whatever order the map is visited. -/
theorem roundtrip_plain (ss : List PlainServer) (config visit : Obj)
    (hnodup : (ss.map (fun s => s.name)).Nodup) (hne : ∀ s ∈ ss, s.name ≠ "")
    (hcfg : Obj.index config "servers" = .arr (ss.map PlainServer.entry))
    (hvisit : visit.Perm (extractClientServers config)) :
    (convertMcpServersToYaml visit).Perm (ss.map PlainServer.spec) := by
  have hex : extractClientServers config = ss.map (fun s => (s.name, Value.obj s.fields)) := by
    rw [extractClientServers_eq config _ hcfg,
      foldl_extract_entries ss [] hnodup hne (by simp [Obj.keys])]
    simp
  rw [hex] at hvisit
  have := List.Perm.filterMap (fun kv : String × Value => convertEntry kv.1 kv.2) hvisit
  rw [← convert_fields]
  exact this

/-- C5, at a concrete manifest: two servers, visited in the reverse order. -/
theorem roundtrip_plain_witness :
    (convertMcpServersToYaml
        [("b", .obj [("command", .str "node"), ("args", .arr [.str "x", .str "y"])]),
         ("a", .obj [("command", .str "foo"), ("env", .obj [("K", .str "v")])])]).Perm
      ([{ name := "a", command := some "foo", args := none, env := some [("K", "v")] },
        { name := "b", command := some "node", args := some ["x", "y"], env := none }].map
        PlainServer.spec) :=
  roundtrip_plain
    [{ name := "a", command := some "foo", args := none, env := some [("K", "v")] },
     { name := "b", command := some "node", args := some ["x", "y"], env := none }]
    [("path", .str "~/.claude.json"),
     ("servers", .arr
        [.obj [("name", .str "a"), ("command", .str "foo"), ("env", .obj [("K", .str "v")])],
         .obj [("name", .str "b"), ("command", .str "node"),
           ("args", .arr [.str "x", .str "y"])]])]
    _ (by decide) (by decide) rfl (List.Perm.swap _ _ [])

/-! ## Lemmas on apply -/

theorem Obj.mem_iff_get (m : Obj) (h : (Obj.keys m).Nodup) (n : String) (v : Value) :
    (n, v) ∈ m ↔ Obj.get m n = some v := by
  induction m with
  | nil => simp [Obj.get_nil]
  | cons kv rest ih =>
    obtain ⟨a, b⟩ := kv
    have hnd : a ∉ Obj.keys rest ∧ (Obj.keys rest).Nodup := List.nodup_cons.1 h
    rw [Obj.get_cons, List.mem_cons]
    by_cases e : n = a
    · subst e
      simp only [if_true, Option.some.injEq, Prod.mk.injEq, true_and]
      constructor
      · rintro (h1 | h1)
        · exact h1.symm
        · exact absurd (List.mem_map.2 ⟨(n, v), h1, rfl⟩) hnd.1
      · intro h1; exact Or.inl h1.symm
    · simp only [e, if_false, Prod.mk.injEq, false_and, false_or]
      exact ih hnd.2

theorem foldl_set_get (servers ms : Obj) (h : (Obj.keys servers).Nodup) (n : String) :
    Obj.get (servers.foldl (fun m kv => Obj.set m kv.1 kv.2) ms) n =
      match Obj.get servers n with
      | some v => some v
      | none => Obj.get ms n := by
  induction servers generalizing ms with
  | nil => simp [Obj.get_nil]
  | cons kv rest ih =>
    obtain ⟨a, b⟩ := kv
    have hnd : a ∉ Obj.keys rest ∧ (Obj.keys rest).Nodup := List.nodup_cons.1 h
    rw [List.foldl_cons, ih _ hnd.2, Obj.get_cons, Obj.get_set]
    by_cases e : n = a
    · subst e
      rw [(Obj.get_eq_none_iff rest n).2 hnd.1]
      simp
    · simp [e]

theorem Obj.index_set (m : Obj) (k : String) (v : Value) (k' : String) :
    Obj.index (Obj.set m k v) k' = if k' = k then v else Obj.index m k' := by
  simp only [Obj.index_eq, Obj.get_set]
  split <;> rfl

theorem Obj.index_of_get {m : Obj} {k : String} {v : Value} (h : Obj.get m k = some v) :
    Obj.index m k = v := by
  simp [Obj.index_eq, h]

/-- What `mergeServers` computes when `mcpServers` is nil or an object. -/
theorem mergeServers_eq (e servers : Obj)
    (h : Obj.index e "mcpServers" = .null ∨ ∃ ms, Obj.index e "mcpServers" = .obj ms) :
    ∃ out, mergeServers (some e) servers = some out ∧
      Obj.get out "mcpServers" =
        some (.obj (servers.foldl (fun m kv => Obj.set m kv.1 kv.2) (existingServersOf e))) ∧
      ∀ k, k ≠ "mcpServers" → Obj.get out k = Obj.get e k := by
  rcases h with h | ⟨ms, h⟩
  · refine ⟨Obj.set (Obj.set e "mcpServers" (.obj [])) "mcpServers"
      (.obj (servers.foldl (fun m kv => Obj.set m kv.1 kv.2) [])), ?_, ?_, ?_⟩
    · simp [mergeServers, h, Obj.index_set]
    · simp [Obj.get_set, existingServersOf, h]
    · intro k hk
      simp [Obj.get_set, hk]
  · refine ⟨Obj.set e "mcpServers"
      (.obj (servers.foldl (fun m kv => Obj.set m kv.1 kv.2) ms)), ?_, ?_, ?_⟩
    · simp [mergeServers, h]
    · simp [Obj.get_set, existingServersOf, h]
    · intro k hk
      simp [Obj.get_set, hk]

theorem any_removed_iff (servers existingServers : Obj) :
    existingServers.any (fun kv => (Obj.get servers kv.1).isNone) = true ↔
      removedNames servers existingServers ≠ [] := by
  rw [List.any_eq_true, removedNames, Ne, List.filter_eq_nil_iff]
  simp only [Obj.keys, List.mem_map, not_forall]
  constructor
  · rintro ⟨kv, hkv, h⟩
    exact ⟨kv.1, ⟨kv, hkv, rfl⟩, by simpa using h⟩
  · rintro ⟨n, ⟨kv, hkv, rfl⟩, h⟩
    exact ⟨kv, hkv, by simpa using h⟩

theorem any_added_changed_iff (marshal : Value → String) (servers existingServers : Obj)
    (hnd : (Obj.keys servers).Nodup) :
    servers.any
        (fun kv =>
          match Obj.get existingServers kv.1 with
          | none => true
          | some existingServer => marshal kv.2 != marshal existingServer) = true ↔
      addedNames servers existingServers ≠ [] ∨
        changedNames marshal servers existingServers ≠ [] := by
  rw [List.any_eq_true, addedNames, changedNames, Ne, Ne, List.filter_eq_nil_iff,
    List.filter_eq_nil_iff]
  simp only [Obj.keys, List.mem_map, not_forall]
  constructor
  · rintro ⟨kv, hkv, h⟩
    have hget : Obj.get servers kv.1 = some kv.2 := (Obj.mem_iff_get servers hnd _ _).1 hkv
    cases hex : Obj.get existingServers kv.1 with
    | none => exact Or.inl ⟨kv.1, ⟨kv, hkv, rfl⟩, by simp [hex]⟩
    | some b =>
      rw [hex] at h
      exact Or.inr ⟨kv.1, ⟨kv, hkv, rfl⟩, by simpa [hget, hex] using h⟩
  · rintro (⟨n, ⟨kv, hkv, rfl⟩, h⟩ | ⟨n, ⟨kv, hkv, rfl⟩, h⟩)
    · refine ⟨kv, hkv, ?_⟩
      have : Obj.get existingServers kv.1 = none := by simpa using h
      simp [this]
    · refine ⟨kv, hkv, ?_⟩
      have hget : Obj.get servers kv.1 = some kv.2 := (Obj.mem_iff_get servers hnd _ _).1 hkv
      rw [hget] at h
      cases hex : Obj.get existingServers kv.1 with
      | none => rfl
      | some b => simpa [hex] using h

theorem hasChanges_iff (marshal : Value → String) (servers existingServers : Obj)
    (hnd : (Obj.keys servers).Nodup) :
    hasChanges marshal servers existingServers = true ↔
      addedNames servers existingServers ≠ [] ∨
        changedNames marshal servers existingServers ≠ [] ∨
        removedNames servers existingServers ≠ [] := by
  rw [hasChanges, Bool.or_eq_true, any_added_changed_iff marshal _ _ hnd, any_removed_iff,
    or_assoc]

/-- Both apply paths, computed in the setting of `ApplySetting`. -/
theorem apply_eq (marshal : Value → String) (w : World) (home : List Char) (config : Obj)
    (vp : List Char) (e : Obj) (hs : ApplySetting w home config vp e) :
    ∃ out, mergeServers (some e) (extractClientServers config) = some out ∧
      processClientConfig w config home =
        (if w.encodeOk out = true then (w.write vp out, .ok) else (w, .failed .marshal)) ∧
      performApplyClient marshal w home (.obj config) =
        if hasChanges marshal (extractClientServers config) (existingServersOf e) = true
        then (if w.encodeOk out = true then (w.write vp out, .updated)
          else (w, .skipped .marshal))
        else (w, .skipped .noChanges) := by
  obtain ⟨out, hout, -, -⟩ := mergeServers_eq e (extractClientServers config) hs.mcp
  obtain ⟨p, hp, hv⟩ := hs.path
  have hlen : (extractClientServers config).length ≠ 0 := by
    simpa [List.length_eq_zero] using hs.servers
  have hread1 : (match w.files vp with
      | some data => if data.nonEmpty then unmarshalInto data else (false, some [])
      | none => (false, some [])) = (false, some e) := by
    rcases hs.file with h | ⟨h | h, rfl⟩ <;> simp [h, FileData.nonEmpty, unmarshalInto]
  have hread2 : (match w.files vp with
      | some data => if data.nonEmpty then (unmarshalInto data).2 else some []
      | none => some []) = some e := by
    rcases hs.file with h | ⟨h | h, rfl⟩ <;> simp [h, FileData.nonEmpty, unmarshalInto]
  have hex : (match Obj.index e "mcpServers" with
      | .null => some []
      | .obj m => some m
      | _ => none) = some (existingServersOf e) := by
    rcases hs.mcp with h | ⟨ms, h⟩ <;> simp [h, existingServersOf]
  refine ⟨out, hout, ?_, ?_⟩
  · simp only [processClientConfig, hp, hv, hlen, if_false, hread1, hout, hs.io.1, hs.io.2,
      Bool.not_true, Bool.false_eq_true]
    cases w.encodeOk out <;> simp
  · simp only [performApplyClient, hp, hv, hlen, if_false, hread2, Option.getD_some, hex, hout,
      hs.io.1, hs.io.2, Bool.not_true, Bool.false_eq_true]
    cases hasChanges marshal (extractClientServers config) (existingServersOf e) <;>
      cases w.encodeOk out <;> simp

theorem mergeServers_some (existing : Option Obj) (servers out : Obj)
    (h : mergeServers existing servers = some out) :
    ∃ ms0, Obj.index out "mcpServers" =
      .obj (servers.foldl (fun m kv => Obj.set m kv.1 kv.2) ms0) := by
  unfold mergeServers at h
  split at h
  · exact absurd h (by simp)
  · rename_i ex
    simp only at h
    split at h
    · rename_i ms0 _
      simp only [Option.some.injEq] at h
      exact ⟨ms0, by rw [← h, Obj.index_set]; simp⟩
    · exact absurd h (by simp)

theorem performApplyClient_updated (marshal : Value → String) (w w1 : World)
    (home : List Char) (config : Obj)
    (h : performApplyClient marshal w home (.obj config) = (w1, .updated)) :
    ∃ p vp existing merged,
      Obj.index config "path" = .str p ∧ validateSafePath w.wd p.data home = .ok vp ∧
      extractClientServers config ≠ [] ∧
      mergeServers existing (extractClientServers config) = some merged ∧
      w.mkdirOk vp = true ∧ w.writeOk vp = true ∧ w.encodeOk merged = true ∧
      w1 = w.write vp merged := by
  unfold performApplyClient at h
  simp only at h
  split at h
  · rename_i p hp
    split at h
    · exact absurd h (by simp)
    · rename_i hlen
      split at h
      · exact absurd h (by simp)
      · rename_i vp hvp
        split at h
        · exact absurd h (by simp)
        · split at h
          · exact absurd h (by simp)
          · split at h
            · exact absurd h (by simp)
            · rename_i merged hmerged
              split at h
              · exact absurd h (by simp)
              · rename_i hmk
                split at h
                · exact absurd h (by simp)
                · rename_i henc
                  split at h
                  · exact absurd h (by simp)
                  · rename_i hwr
                    simp only [Prod.mk.injEq, and_true] at h
                    refine ⟨p, vp, _, merged, hp, hvp, ?_, hmerged, by simpa using hmk,
                      by simpa using hwr, by simpa using henc, h.symm⟩
                    intro hnil
                    exact hlen (by simp [hnil])
  · exact absurd h (by simp)

theorem processClientConfig_ok (w w1 : World) (home : List Char) (config : Obj)
    (h : processClientConfig w config home = (w1, .ok)) :
    ∃ p vp existing merged,
      Obj.index config "path" = .str p ∧ validateSafePath w.wd p.data home = .ok vp ∧
      extractClientServers config ≠ [] ∧
      mergeServers existing (extractClientServers config) = some merged ∧
      w.mkdirOk vp = true ∧ w.writeOk vp = true ∧ w.encodeOk merged = true ∧
      w1 = w.write vp merged := by
  unfold processClientConfig at h
  simp only at h
  split at h
  · rename_i p hp
    split at h
    · exact absurd h (by simp)
    · rename_i vp hvp
      split at h
      · exact absurd h (by simp)
      · rename_i hlen
        split at h
        · exact absurd h (by simp)
        · split at h
          · exact absurd h (by simp)
          · rename_i merged hmerged
            split at h
            · exact absurd h (by simp)
            · rename_i hmk
              split at h
              · exact absurd h (by simp)
              · rename_i henc
                split at h
                · exact absurd h (by simp)
                · rename_i hwr
                  simp only [Prod.mk.injEq, and_true] at h
                  refine ⟨p, vp, _, merged, hp, hvp, ?_, hmerged, by simpa using hmk,
                    by simpa using hwr, by simpa using henc, h.symm⟩
                  intro hnil
                  exact hlen (by simp [hnil])
  · exact absurd h (by simp)

/-! ## Lemmas on the round trip through a file -/

theorem rereadFields_get (r : Int → Int) (m : Obj) (k : String) :
    Obj.get (rereadFields r m) k = (Obj.get m k).map (rereadValue r) := by
  induction m with
  | nil => simp [rereadFields, Obj.get_nil]
  | cons kv rest ih =>
    obtain ⟨a, b⟩ := kv
    rw [rereadFields, Obj.get_cons, Obj.get_cons, ih]
    by_cases h : k = a <;> simp [h]

theorem rereadFields_keys (r : Int → Int) (m : Obj) :
    Obj.keys (rereadFields r m) = Obj.keys m := by
  induction m with
  | nil => rfl
  | cons kv rest ih =>
    obtain ⟨a, b⟩ := kv
    have : List.map Prod.fst (rereadFields r rest) = List.map Prod.fst rest := ih
    simp [rereadFields, Obj.keys, this]

theorem rereadFields_set (r : Int → Int) (m : Obj) (k : String) (v : Value) :
    rereadFields r (Obj.set m k v) = Obj.set (rereadFields r m) k (rereadValue r v) := by
  induction m with
  | nil => simp [rereadFields, Obj.set]
  | cons kv rest ih =>
    obtain ⟨a, b⟩ := kv
    by_cases h : a = k
    · simp [rereadFields, Obj.set, h]
    · simp [rereadFields, Obj.set, h, ih]

theorem rereadFields_foldl (r : Int → Int) (d ms : Obj) :
    rereadFields r (d.foldl (fun m kv => Obj.set m kv.1 kv.2) ms) =
      (rereadFields r d).foldl (fun m kv => Obj.set m kv.1 kv.2) (rereadFields r ms) := by
  induction d generalizing ms with
  | nil => rfl
  | cons kv rest ih =>
    obtain ⟨a, b⟩ := kv
    rw [List.foldl_cons, ih, rereadFields_set]
    rfl

theorem rereadFields_index_obj (r : Int → Int) (m : Obj) (k : String) (ms : Obj)
    (h : Obj.index m k = .obj ms) :
    Obj.index (rereadFields r m) k = .obj (rereadFields r ms) := by
  rw [Obj.index_eq] at h ⊢
  rw [rereadFields_get]
  cases hg : Obj.get m k with
  | none => rw [hg] at h; exact absurd h (by simp)
  | some v =>
    rw [hg] at h
    simp only [Option.getD_some] at h
    subst h
    simp [rereadValue]

theorem existingServersOf_reread (r : Int → Int) (m ms : Obj)
    (h : Obj.index m "mcpServers" = .obj ms) :
    existingServersOf (rereadFields r m) = rereadFields r ms := by
  simp [existingServersOf, rereadFields_index_obj r m _ ms h]

/-- After a write of `merged` at `vp`, the client is again in the setting of
`ApplySetting`, the file now holding what `merged` reads back as. -/
theorem setting_after_write (w : World) (home : List Char) (config : Obj) (p : String)
    (vp : List Char) (existing : Option Obj) (merged : Obj)
    (hp : Obj.index config "path" = .str p)
    (hvp : validateSafePath w.wd p.data home = .ok vp)
    (hd : extractClientServers config ≠ [])
    (hm : mergeServers existing (extractClientServers config) = some merged)
    (hmk : w.mkdirOk vp = true) (hwr : w.writeOk vp = true) :
    ApplySetting (w.write vp merged) home config vp (rereadFields w.readBack merged) := by
  obtain ⟨ms0, hms0⟩ := mergeServers_some _ _ _ hm
  exact
    { path := ⟨p, hp, hvp⟩
      servers := hd
      file := Or.inl (by simp [World.write])
      mcp := Or.inr ⟨_, rereadFields_index_obj _ _ _ _ hms0⟩
      io := ⟨hmk, hwr⟩ }

/-! ## Theorems on apply -/

/-- C2: in the setting of `ApplySetting` (existing content `e` whose
`mcpServers` is nil or an object, non-empty desired servers), the structure
that apply hands to the encoder and writes binds in `mcpServers` every desired
name to its desired value and every other name to what `e` bound it to, and
binds every top-level key other than `mcpServers` as `e` does.
`processClientConfig` writes it when the encoder accepts it and returns the
encoder's error otherwise; `performApply` writes the same structure or leaves
the file alone. -/
theorem apply_merge_frame (marshal : Value → String) (w : World) (home : List Char)
    (config : Obj) (vp : List Char) (e : Obj) (hs : ApplySetting w home config vp e) :
    ∃ out ms,
      (w.encodeOk out = true → processClientConfig w config home = (w.write vp out, .ok)) ∧
      (w.encodeOk out = false → processClientConfig w config home = (w, .failed .marshal)) ∧
      (performApplyClient marshal w home (.obj config) = (w.write vp out, .updated) ∨
        performApplyClient marshal w home (.obj config) = (w, .skipped .noChanges) ∨
        (w.encodeOk out = false ∧
          performApplyClient marshal w home (.obj config) = (w, .skipped .marshal))) ∧
      Obj.get out "mcpServers" = some (.obj ms) ∧
      (∀ n v, Obj.get (extractClientServers config) n = some v → Obj.get ms n = some v) ∧
      (∀ n, Obj.get (extractClientServers config) n = none →
        Obj.get ms n = Obj.get (existingServersOf e) n) ∧
      (∀ k, k ≠ "mcpServers" → Obj.get out k = Obj.get e k) := by
  obtain ⟨out, hout, hproc, htui⟩ := apply_eq marshal w home config vp e hs
  obtain ⟨out', hout', hms, hframe⟩ := mergeServers_eq e (extractClientServers config) hs.mcp
  rw [hout] at hout'
  simp only [Option.some.injEq] at hout'
  subst hout'
  have hnd := extractClientServers_keys_nodup config
  refine ⟨out, _, ?_, ?_, ?_, hms, ?_, ?_, hframe⟩
  · intro henc
    rw [hproc, henc]; simp
  · intro henc
    rw [hproc, henc]; simp
  · rw [htui]
    cases hasChanges marshal (extractClientServers config) (existingServersOf e)
    · exact Or.inr (Or.inl (by simp))
    · cases henc : w.encodeOk out
      · exact Or.inr (Or.inr ⟨rfl, by simp⟩)
      · exact Or.inl (by simp)
  · intro n v hv
    rw [foldl_set_get _ _ hnd, hv]
  · intro n hn
    rw [foldl_set_get _ _ hnd, hn]

/-- C2, at concrete inputs: over a file that holds a key `theme` and the
servers `old` and `test`, and over a missing file, where the written structure
is `{"mcpServers":{"test":{"command":"foo"}}}`. -/
theorem apply_merge_frame_witness :
    (∃ out ms,
      (demoWorld.encodeOk out = true → processClientConfig demoWorld demoConfig demoHome
        = (demoWorld.write "/home/u/.claude.json".data out, .ok)) ∧
      (demoWorld.encodeOk out = false → processClientConfig demoWorld demoConfig demoHome
        = (demoWorld, .failed .marshal)) ∧
      (performApplyClient jsonMarshal demoWorld demoHome (.obj demoConfig)
          = (demoWorld.write "/home/u/.claude.json".data out, .updated) ∨
        performApplyClient jsonMarshal demoWorld demoHome (.obj demoConfig)
          = (demoWorld, .skipped .noChanges) ∨
        (demoWorld.encodeOk out = false ∧
          performApplyClient jsonMarshal demoWorld demoHome (.obj demoConfig)
            = (demoWorld, .skipped .marshal))) ∧
      Obj.get out "mcpServers" = some (.obj ms) ∧
      (∀ n v, Obj.get (extractClientServers demoConfig) n = some v → Obj.get ms n = some v) ∧
      (∀ n, Obj.get (extractClientServers demoConfig) n = none →
        Obj.get ms n = Obj.get (existingServersOf
          [("theme", .str "dark"),
           ("mcpServers", .obj
              [("old", .obj [("command", .str "bar")]),
               ("test", .obj [("command", .str "foo")])])]) n) ∧
      (∀ k, k ≠ "mcpServers" → Obj.get out k = Obj.get
          [("theme", .str "dark"),
           ("mcpServers", .obj
              [("old", .obj [("command", .str "bar")]),
               ("test", .obj [("command", .str "foo")])])] k)) ∧
    (processClientConfig emptyWorld demoConfig demoHome).1.files "/home/u/.claude.json".data
      = some (.json (.obj [("mcpServers", .obj [("test", .obj [("command", .str "foo")])])])) ∧
    (performApplyClient jsonMarshal emptyWorld demoHome (.obj demoConfig)).1.files
        "/home/u/.claude.json".data
      = some (.json (.obj [("mcpServers", .obj [("test", .obj [("command", .str "foo")])])])) :=
  ⟨apply_merge_frame jsonMarshal demoWorld demoHome demoConfig "/home/u/.claude.json".data _
    { path := ⟨"~/.claude.json", rfl, by decide⟩
      servers := by
        rw [show extractClientServers demoConfig = [("test", .obj [("command", .str "foo")])]
          from rfl]
        exact List.cons_ne_nil _ _
      file := Or.inl rfl
      mcp := Or.inr ⟨_, rfl⟩
      io := ⟨rfl, rfl⟩ },
   rfl, rfl⟩

/-- C4 fails as stated: with the added and the changed set empty and only the
removed set non-empty, `performApply` and `processClientConfig` both write the
client's file and count the client; and `processClientConfig` writes even when
all three sets are empty. -/
theorem write_decision_counterexample :
    (addedNames (extractClientServers demoConfig)
        [("old", .obj [("command", .str "bar")]), ("test", .obj [("command", .str "foo")])] = [] ∧
      changedNames jsonMarshal (extractClientServers demoConfig)
        [("old", .obj [("command", .str "bar")]), ("test", .obj [("command", .str "foo")])] = [] ∧
      removedNames (extractClientServers demoConfig)
        [("old", .obj [("command", .str "bar")]), ("test", .obj [("command", .str "foo")])]
          = ["old"] ∧
      (performApplyClient jsonMarshal demoWorld demoHome (.obj demoConfig)).2 = .updated ∧
      (performApplyClient jsonMarshal demoWorld demoHome (.obj demoConfig)).1.writes.map
        Prod.fst = ["/home/u/.claude.json".data] ∧
      (processClientConfig demoWorld demoConfig demoHome).2 = .ok ∧
      (processClientConfig demoWorld demoConfig demoHome).1.writes.map Prod.fst
        = ["/home/u/.claude.json".data]) ∧
    (addedNames (extractClientServers demoConfig)
        [("test", .obj [("command", .str "foo")])] = [] ∧
      changedNames jsonMarshal (extractClientServers demoConfig)
        [("test", .obj [("command", .str "foo")])] = [] ∧
      removedNames (extractClientServers demoConfig)
        [("test", .obj [("command", .str "foo")])] = [] ∧
      (processClientConfig syncedWorld demoConfig demoHome).2 = .ok ∧
      (processClientConfig syncedWorld demoConfig demoHome).1.writes.map Prod.fst
        = ["/home/u/.claude.json".data]) := by
  refine ⟨⟨?_, ?_, ?_, ?_, ?_, ?_, ?_⟩, ?_, ?_, ?_, ?_, ?_⟩ <;> decide

/-- C4, amended: in the setting of `ApplySetting`, with `out` the merged
structure and `vp` the client's resolved path.  When the added, the changed and
the removed set are all empty, `performApply` leaves the world as it is and does
not count the client.  When one of them is non-empty it writes `out` to `vp`
and counts the client if the encoder accepts `out`, and otherwise leaves the
world as it is and does not count the client.  `processClientConfig` computes no
difference: it writes `out` to `vp` if the encoder accepts it and otherwise
returns the encoder's error without writing.  A write adds the call to the log
of writes. -/
theorem apply_write_decision (marshal : Value → String) (w : World) (home : List Char)
    (config : Obj) (vp : List Char) (e : Obj) (hs : ApplySetting w home config vp e) :
    ∃ out, mergeServers (some e) (extractClientServers config) = some out ∧
      ((addedNames (extractClientServers config) (existingServersOf e) = [] ∧
          changedNames marshal (extractClientServers config) (existingServersOf e) = [] ∧
          removedNames (extractClientServers config) (existingServersOf e) = []) →
        performApplyClient marshal w home (.obj config) = (w, .skipped .noChanges)) ∧
      ((addedNames (extractClientServers config) (existingServersOf e) ≠ [] ∨
          changedNames marshal (extractClientServers config) (existingServersOf e) ≠ [] ∨
          removedNames (extractClientServers config) (existingServersOf e) ≠ []) →
        (w.encodeOk out = true →
          performApplyClient marshal w home (.obj config) = (w.write vp out, .updated)) ∧
        (w.encodeOk out = false →
          performApplyClient marshal w home (.obj config) = (w, .skipped .marshal))) ∧
      (w.encodeOk out = true → processClientConfig w config home = (w.write vp out, .ok)) ∧
      (w.encodeOk out = false → processClientConfig w config home = (w, .failed .marshal)) ∧
      (w.write vp out).writes = w.writes ++ [(vp, out)] := by
  obtain ⟨out, hout, hproc, htui⟩ := apply_eq marshal w home config vp e hs
  have hiff := hasChanges_iff marshal (extractClientServers config) (existingServersOf e)
    (extractClientServers_keys_nodup config)
  refine ⟨out, hout, ?_, ?_, ?_, ?_, rfl⟩
  · rintro ⟨h1, h2, h3⟩
    have hno : hasChanges marshal (extractClientServers config) (existingServersOf e)
        = false := by
      cases hc : hasChanges marshal (extractClientServers config) (existingServersOf e)
      · rfl
      · rcases hiff.1 hc with h | h | h
        · exact absurd h1 h
        · exact absurd h2 h
        · exact absurd h3 h
    rw [htui, hno]; simp
  · intro hany
    have hyes := hiff.2 hany
    refine ⟨?_, ?_⟩
    · intro henc
      rw [htui, hyes, henc]; simp
    · intro henc
      rw [htui, hyes, henc]; simp
  · intro henc
    rw [hproc, henc]; simp
  · intro henc
    rw [hproc, henc]; simp

/-- C4, amended, at concrete inputs: the file of `demoWorld`, where only the
removed set is non-empty and the file is written; the file of `syncedWorld`,
where the three sets are empty and `performApply` writes nothing; and
`refusingWorld`, where the encoder refuses the merge and neither function
writes. -/
theorem apply_write_decision_witness :
    (∃ out,
      mergeServers
          (some [("theme", .str "dark"),
            ("mcpServers", .obj
              [("old", .obj [("command", .str "bar")]),
               ("test", .obj [("command", .str "foo")])])])
          (extractClientServers demoConfig) = some out ∧
      ((addedNames (extractClientServers demoConfig) (existingServersOf
            [("theme", .str "dark"),
             ("mcpServers", .obj
                [("old", .obj [("command", .str "bar")]),
                 ("test", .obj [("command", .str "foo")])])]) = [] ∧
          changedNames jsonMarshal (extractClientServers demoConfig) (existingServersOf
            [("theme", .str "dark"),
             ("mcpServers", .obj
                [("old", .obj [("command", .str "bar")]),
                 ("test", .obj [("command", .str "foo")])])]) = [] ∧
          removedNames (extractClientServers demoConfig) (existingServersOf
            [("theme", .str "dark"),
             ("mcpServers", .obj
                [("old", .obj [("command", .str "bar")]),
                 ("test", .obj [("command", .str "foo")])])]) = []) →
        performApplyClient jsonMarshal demoWorld demoHome (.obj demoConfig)
          = (demoWorld, .skipped .noChanges)) ∧
      ((addedNames (extractClientServers demoConfig) (existingServersOf
            [("theme", .str "dark"),
             ("mcpServers", .obj
                [("old", .obj [("command", .str "bar")]),
                 ("test", .obj [("command", .str "foo")])])]) ≠ [] ∨
          changedNames jsonMarshal (extractClientServers demoConfig) (existingServersOf
            [("theme", .str "dark"),
             ("mcpServers", .obj
                [("old", .obj [("command", .str "bar")]),
                 ("test", .obj [("command", .str "foo")])])]) ≠ [] ∨
          removedNames (extractClientServers demoConfig) (existingServersOf
            [("theme", .str "dark"),
             ("mcpServers", .obj
                [("old", .obj [("command", .str "bar")]),
                 ("test", .obj [("command", .str "foo")])])]) ≠ []) →
        (demoWorld.encodeOk out = true →
          performApplyClient jsonMarshal demoWorld demoHome (.obj demoConfig)
            = (demoWorld.write "/home/u/.claude.json".data out, .updated)) ∧
        (demoWorld.encodeOk out = false →
          performApplyClient jsonMarshal demoWorld demoHome (.obj demoConfig)
            = (demoWorld, .skipped .marshal))) ∧
      (demoWorld.encodeOk out = true → processClientConfig demoWorld demoConfig demoHome
        = (demoWorld.write "/home/u/.claude.json".data out, .ok)) ∧
      (demoWorld.encodeOk out = false → processClientConfig demoWorld demoConfig demoHome
        = (demoWorld, .failed .marshal)) ∧
      (demoWorld.write "/home/u/.claude.json".data out).writes
        = demoWorld.writes ++ [("/home/u/.claude.json".data, out)]) ∧
    (performApplyClient jsonMarshal demoWorld demoHome (.obj demoConfig)).1.writes.map Prod.fst
      = ["/home/u/.claude.json".data] ∧
    (performApplyClient jsonMarshal syncedWorld demoHome (.obj demoConfig)).1.writes = [] ∧
    (performApplyClient jsonMarshal refusingWorld demoHome (.obj demoConfig)).2
      = .skipped .marshal ∧
    (performApplyClient jsonMarshal refusingWorld demoHome (.obj demoConfig)).1.writes = [] ∧
    (processClientConfig refusingWorld demoConfig demoHome).2 = .failed .marshal ∧
    (processClientConfig refusingWorld demoConfig demoHome).1.writes = [] :=
  ⟨apply_write_decision jsonMarshal demoWorld demoHome demoConfig "/home/u/.claude.json".data _
    { path := ⟨"~/.claude.json", rfl, by decide⟩
      servers := by
        rw [show extractClientServers demoConfig = [("test", .obj [("command", .str "foo")])]
          from rfl]
        exact List.cons_ne_nil _ _
      file := Or.inl rfl
      mcp := Or.inr ⟨_, rfl⟩
      io := ⟨rfl, rfl⟩ },
   by decide, rfl, by decide, rfl, by decide, rfl⟩

/-! ## A second apply -/

/-- The three sets of the change test, taken against the file that a merge
left, as it reads back. -/
theorem changes_after_merge (marshal : Value → String) (r : Int → Int)
    (existing : Option Obj) (servers merged : Obj) (hnd : (Obj.keys servers).Nodup)
    (hm : mergeServers existing servers = some merged) :
    addedNames servers (existingServersOf (rereadFields r merged)) = [] ∧
    removedNames servers (existingServersOf (rereadFields r merged)) =
      removedNames servers (existingServersOf merged) ∧
    (changedNames marshal servers (existingServersOf (rereadFields r merged)) = [] ↔
      ∀ n v, Obj.get servers n = some v → marshal v = marshal (rereadValue r v)) := by
  obtain ⟨ms0, hms0⟩ := mergeServers_some _ _ _ hm
  have hex : existingServersOf merged =
      servers.foldl (fun m kv => Obj.set m kv.1 kv.2) ms0 := by
    simp [existingServersOf, hms0]
  have hex2 := existingServersOf_reread r merged _ hms0
  rw [← hex] at hex2
  have hget : ∀ n, Obj.get (existingServersOf (rereadFields r merged)) n =
      (Obj.get (existingServersOf merged) n).map (rereadValue r) := by
    intro n
    rw [hex2, rereadFields_get]
  have hsame : ∀ n v, Obj.get servers n = some v →
      Obj.get (existingServersOf merged) n = some v := by
    intro n v hv
    rw [hex, foldl_set_get servers ms0 hnd n, hv]
  refine ⟨?_, ?_, ?_⟩
  · rw [addedNames, List.filter_eq_nil_iff]
    intro n hn
    cases hg : Obj.get servers n with
    | none => exact absurd hn ((Obj.get_eq_none_iff servers n).1 hg)
    | some v => simp [hget, hsame n v hg]
  · have hk : Obj.keys (existingServersOf (rereadFields r merged)) =
        Obj.keys (existingServersOf merged) := by
      rw [hex2, rereadFields_keys]
    simp only [removedNames, hk]
  · rw [changedNames, List.filter_eq_nil_iff]
    constructor
    · intro h n v hv
      have hn : n ∈ Obj.keys servers := by
        by_contra hc
        rw [(Obj.get_eq_none_iff servers n).2 hc] at hv
        exact absurd hv (by simp)
      have := h n hn
      simpa [hv, hget, hsame n v hv] using this
    · intro h n hn
      cases hg : Obj.get servers n with
      | none => simp
      | some v =>
        have := h n v hg
        simp [hget, hsame n v hg, this]

/-- C3 fails as stated: over a file whose `mcpServers` holds a server that the
manifest does not name, a first `performApply` writes the file and a second one
against the resulting file writes it again; with nothing to remove, a desired
server holding an integer that reads back rounded makes the second
`performApply` write again as well; and `processClientConfig`, started without
any file, writes on the first and on the second apply. -/
theorem second_apply_counterexample :
    ((performApplyClient jsonMarshal demoWorld demoHome (.obj demoConfig)).2 = .updated ∧
      (performApplyClient jsonMarshal
        (performApplyClient jsonMarshal demoWorld demoHome (.obj demoConfig)).1
        demoHome (.obj demoConfig)).2 = .updated ∧
      (performApplyClient jsonMarshal
        (performApplyClient jsonMarshal demoWorld demoHome (.obj demoConfig)).1
        demoHome (.obj demoConfig)).1.writes.map Prod.fst
        = ["/home/u/.claude.json".data, "/home/u/.claude.json".data]) ∧
    ((performApplyClient jsonMarshal roundingWorld demoHome (.obj bigConfig)).2 = .updated ∧
      (performApplyClient jsonMarshal
        (performApplyClient jsonMarshal roundingWorld demoHome (.obj bigConfig)).1
        demoHome (.obj bigConfig)).2 = .updated ∧
      (performApplyClient jsonMarshal
        (performApplyClient jsonMarshal roundingWorld demoHome (.obj bigConfig)).1
        demoHome (.obj bigConfig)).1.writes.map Prod.fst
        = ["/home/u/.claude.json".data, "/home/u/.claude.json".data]) ∧
    ((processClientConfig emptyWorld demoConfig demoHome).2 = .ok ∧
      (processClientConfig (processClientConfig emptyWorld demoConfig demoHome).1
        demoConfig demoHome).2 = .ok ∧
      (processClientConfig (processClientConfig emptyWorld demoConfig demoHome).1
        demoConfig demoHome).1.writes.map Prod.fst
        = ["/home/u/.claude.json".data, "/home/u/.claude.json".data]) := by
  refine ⟨⟨?_, ?_, ?_⟩, ⟨?_, ?_, ?_⟩, ?_, ?_, ?_⟩ <;> decide

/-- C3, amended: once a first `performApply` has written a client's file (the
structure `out`, at the client's resolved path `vp`), a second apply of the same
manifest against the resulting file performs no write when every server name in
that file is named by the manifest and every desired server serializes after
the round trip through the file as it does in the manifest.  When the file
holds a name that the manifest does not name, or a desired server reads back
with another serialization, the second apply writes the file again if the
encoder accepts the new merge, and only then.  `processClientConfig` computes no
difference: after a successful first apply the second apply writes the file
again if the encoder accepts the new merge. -/
theorem second_apply (marshal : Value → String) (w : World) (home : List Char)
    (config : Obj) :
    (∀ w1, performApplyClient marshal w home (.obj config) = (w1, .updated) →
      ∃ p vp out,
        Obj.index config "path" = .str p ∧ validateSafePath w.wd p.data home = .ok vp ∧
        w1 = w.write vp out ∧
        (removedNames (extractClientServers config) (existingServersOf out) = [] →
          (∀ n v, Obj.get (extractClientServers config) n = some v →
            marshal v = marshal (rereadValue w.readBack v)) →
          performApplyClient marshal w1 home (.obj config) = (w1, .skipped .noChanges)) ∧
        ((removedNames (extractClientServers config) (existingServersOf out) ≠ [] ∨
            ∃ n v, Obj.get (extractClientServers config) n = some v ∧
              marshal v ≠ marshal (rereadValue w.readBack v)) →
          ∃ out2,
            mergeServers (some (rereadFields w.readBack out)) (extractClientServers config)
              = some out2 ∧
            (w.encodeOk out2 = true →
              performApplyClient marshal w1 home (.obj config)
                = (w1.write vp out2, .updated)) ∧
            (w.encodeOk out2 = false →
              performApplyClient marshal w1 home (.obj config)
                = (w1, .skipped .marshal)) ∧
            (w1.write vp out2).writes = w1.writes ++ [(vp, out2)])) ∧
    (∀ w1, processClientConfig w config home = (w1, .ok) →
      ∃ p vp out out2,
        Obj.index config "path" = .str p ∧ validateSafePath w.wd p.data home = .ok vp ∧
        w1 = w.write vp out ∧
        mergeServers (some (rereadFields w.readBack out)) (extractClientServers config)
          = some out2 ∧
        (w.encodeOk out2 = true →
          processClientConfig w1 config home = (w1.write vp out2, .ok)) ∧
        (w.encodeOk out2 = false →
          processClientConfig w1 config home = (w1, .failed .marshal)) ∧
        (w1.write vp out2).writes = w1.writes ++ [(vp, out2)]) := by
  have hnd := extractClientServers_keys_nodup config
  constructor
  · intro w1 h1
    obtain ⟨p, vp, existing, merged, hp, hvp, hd, hm, hmk, hwr, -, rfl⟩ :=
      performApplyClient_updated marshal w w1 home config h1
    have hs := setting_after_write w home config p vp existing merged hp hvp hd hm hmk hwr
    obtain ⟨out2, hout2, -, htui⟩ := apply_eq marshal _ home config vp _ hs
    obtain ⟨hadd, hrem, hchg⟩ :=
      changes_after_merge marshal w.readBack existing _ merged hnd hm
    have hiff := hasChanges_iff marshal (extractClientServers config)
      (existingServersOf (rereadFields w.readBack merged)) hnd
    rw [hrem] at hiff
    refine ⟨p, vp, merged, hp, hvp, rfl, ?_, ?_⟩
    · intro hnone hsame
      have hno : hasChanges marshal (extractClientServers config)
          (existingServersOf (rereadFields w.readBack merged)) = false := by
        cases hc : hasChanges marshal (extractClientServers config)
            (existingServersOf (rereadFields w.readBack merged))
        · rfl
        · rcases hiff.1 hc with h | h | h
          · exact absurd hadd h
          · exact absurd (hchg.2 hsame) h
          · exact absurd hnone h
      rw [htui, hno]; simp
    · intro hany
      have hyes : hasChanges marshal (extractClientServers config)
          (existingServersOf (rereadFields w.readBack merged)) = true := by
        apply hiff.2
        rcases hany with h | ⟨n, v, hv, hne⟩
        · exact Or.inr (Or.inr h)
        · refine Or.inr (Or.inl ?_)
          intro hnil
          exact hne (hchg.1 hnil n v hv)
      refine ⟨out2, hout2, ?_, ?_, rfl⟩
      · intro henc
        have henc' : (w.write vp merged).encodeOk out2 = true := henc
        rw [htui, hyes, henc']; simp
      · intro henc
        have henc' : (w.write vp merged).encodeOk out2 = false := henc
        rw [htui, hyes, henc']; simp
  · intro w1 h1
    obtain ⟨p, vp, existing, merged, hp, hvp, hd, hm, hmk, hwr, -, rfl⟩ :=
      processClientConfig_ok w w1 home config h1
    have hs := setting_after_write w home config p vp existing merged hp hvp hd hm hmk hwr
    obtain ⟨out2, hout2, hproc, -⟩ := apply_eq jsonMarshal _ home config vp _ hs
    refine ⟨p, vp, merged, out2, hp, hvp, rfl, hout2, ?_, ?_, rfl⟩
    · intro henc
      have henc' : (w.write vp merged).encodeOk out2 = true := henc
      rw [hproc, henc']; simp
    · intro henc
      have henc' : (w.write vp merged).encodeOk out2 = false := henc
      rw [hproc, henc']; simp


/-- C3, amended, at concrete inputs: started without any file, the first
`performApply` and the first `processClientConfig` write the client's file; the
statement then describes the second apply of each, and the second
`performApply` performs no write. -/
theorem second_apply_witness :
    (performApplyClient jsonMarshal emptyWorld demoHome (.obj demoConfig)
        = ((performApplyClient jsonMarshal emptyWorld demoHome (.obj demoConfig)).1,
            .updated) ∧
      ∃ p vp out,
        Obj.index demoConfig "path" = .str p ∧
        validateSafePath emptyWorld.wd p.data demoHome = .ok vp ∧
        (performApplyClient jsonMarshal emptyWorld demoHome (.obj demoConfig)).1
          = emptyWorld.write vp out ∧
        (removedNames (extractClientServers demoConfig) (existingServersOf out) = [] →
          (∀ n v, Obj.get (extractClientServers demoConfig) n = some v →
            jsonMarshal v = jsonMarshal (rereadValue emptyWorld.readBack v)) →
          performApplyClient jsonMarshal
            (performApplyClient jsonMarshal emptyWorld demoHome (.obj demoConfig)).1
            demoHome (.obj demoConfig)
          = ((performApplyClient jsonMarshal emptyWorld demoHome (.obj demoConfig)).1,
              .skipped .noChanges)) ∧
        ((removedNames (extractClientServers demoConfig) (existingServersOf out) ≠ [] ∨
            ∃ n v, Obj.get (extractClientServers demoConfig) n = some v ∧
              jsonMarshal v ≠ jsonMarshal (rereadValue emptyWorld.readBack v)) →
          ∃ out2,
            mergeServers (some (rereadFields emptyWorld.readBack out))
              (extractClientServers demoConfig) = some out2 ∧
            (emptyWorld.encodeOk out2 = true →
              performApplyClient jsonMarshal
                (performApplyClient jsonMarshal emptyWorld demoHome (.obj demoConfig)).1
                demoHome (.obj demoConfig)
              = ((performApplyClient jsonMarshal emptyWorld demoHome
                    (.obj demoConfig)).1.write vp out2, .updated)) ∧
            (emptyWorld.encodeOk out2 = false →
              performApplyClient jsonMarshal
                (performApplyClient jsonMarshal emptyWorld demoHome (.obj demoConfig)).1
                demoHome (.obj demoConfig)
              = ((performApplyClient jsonMarshal emptyWorld demoHome (.obj demoConfig)).1,
                  .skipped .marshal)) ∧
            ((performApplyClient jsonMarshal emptyWorld demoHome (.obj demoConfig)).1.write
                vp out2).writes
              = (performApplyClient jsonMarshal emptyWorld demoHome
                  (.obj demoConfig)).1.writes ++ [(vp, out2)])) ∧
    (processClientConfig emptyWorld demoConfig demoHome
        = ((processClientConfig emptyWorld demoConfig demoHome).1, .ok) ∧
      ∃ p vp out out2,
        Obj.index demoConfig "path" = .str p ∧
        validateSafePath emptyWorld.wd p.data demoHome = .ok vp ∧
        (processClientConfig emptyWorld demoConfig demoHome).1 = emptyWorld.write vp out ∧
        mergeServers (some (rereadFields emptyWorld.readBack out))
          (extractClientServers demoConfig) = some out2 ∧
        (emptyWorld.encodeOk out2 = true →
          processClientConfig (processClientConfig emptyWorld demoConfig demoHome).1
            demoConfig demoHome
          = ((processClientConfig emptyWorld demoConfig demoHome).1.write vp out2, .ok)) ∧
        (emptyWorld.encodeOk out2 = false →
          processClientConfig (processClientConfig emptyWorld demoConfig demoHome).1
            demoConfig demoHome
          = ((processClientConfig emptyWorld demoConfig demoHome).1, .failed .marshal)) ∧
        ((processClientConfig emptyWorld demoConfig demoHome).1.write vp out2).writes
          = (processClientConfig emptyWorld demoConfig demoHome).1.writes
              ++ [(vp, out2)]) ∧
    (performApplyClient jsonMarshal
        (performApplyClient jsonMarshal emptyWorld demoHome (.obj demoConfig)).1
        demoHome (.obj demoConfig)).2 = .skipped .noChanges :=
  ⟨⟨rfl, (second_apply jsonMarshal emptyWorld demoHome demoConfig).1 _ rfl⟩,
   ⟨rfl, (second_apply jsonMarshal emptyWorld demoHome demoConfig).2 _ rfl⟩,
   by decide⟩

/-! ## The guards of `parseYAMLSafely` -/

theorem nestDepth_nil : nestDepth [] = 0 := by simp [nestDepth]

theorem nestDepth_cons (c : Char) (cs : List Char) :
    nestDepth (c :: cs) =
      (if isOpening c then 1 else 0) - (if isClosing c then 1 else 0) + nestDepth cs := by
  simp only [nestDepth, List.countP_cons]
  split <;> split <;> push_cast <;> ring

theorem isOpening_not_isClosing (c : Char) (h : isOpening c = true) : isClosing c = false := by
  simp only [isOpening, openBrace, Bool.or_eq_true, decide_eq_true_eq] at h
  rcases h with h | h <;> subst h <;> decide

theorem scanNesting_some (L : Int) (cs : List Char) (cur maxD d : Int)
    (h : scanNesting L cs cur maxD = some d) : d > L := by
  induction cs generalizing cur maxD with
  | nil => simp [scanNesting] at h
  | cons c rest ih =>
    rw [scanNesting] at h
    generalize (if isOpening c = true then
        (cur + 1, if cur + 1 > maxD then cur + 1 else maxD)
      else if isClosing c = true then (cur - 1, maxD) else (cur, maxD)) = st at h
    split at h
    · rename_i hgt
      simp only [Option.some.injEq] at h
      rw [← h]; exact hgt
    · exact ih _ _ h

theorem scanNesting_none_iff (L : Int) (cs : List Char) (cur maxD : Int)
    (hmax : maxD ≤ L) (hcur : cur ≤ maxD) :
    scanNesting L cs cur maxD = none ↔ ∀ n, cur + nestDepth (cs.take n) ≤ L := by
  induction cs generalizing cur maxD with
  | nil =>
    simp only [scanNesting, List.take_nil, nestDepth_nil, add_zero, true_iff]
    intro _; omega
  | cons c rest ih =>
    have hsplit : (∀ n, cur + nestDepth ((c :: rest).take n) ≤ L) ↔
        ∀ n, cur + ((if isOpening c then 1 else 0) - (if isClosing c then 1 else 0))
          + nestDepth (rest.take n) ≤ L := by
      constructor
      · intro h n
        have := h (n + 1)
        rw [List.take_succ_cons, nestDepth_cons] at this
        omega
      · intro h n
        cases n with
        | zero =>
          simp only [List.take_zero, nestDepth_nil, add_zero]
          omega
        | succ m =>
          rw [List.take_succ_cons, nestDepth_cons]
          have := h m
          omega
    rw [hsplit]
    simp only [scanNesting]
    by_cases ho : isOpening c = true
    · have hc := isOpening_not_isClosing c ho
      simp only [ho, hc, if_true, Bool.false_eq_true, if_false, sub_zero]
      by_cases hnew : cur + 1 > maxD
      · simp only [hnew, if_true]
        by_cases hgt : cur + 1 > L
        · simp only [hgt, if_true]
          constructor
          · intro h; exact absurd h (by simp)
          · intro h
            have := h 0
            simp only [List.take_zero, nestDepth_nil, add_zero] at this
            omega
        · simp only [hgt, if_false]
          exact ih (cur + 1) (cur + 1) (by omega) (le_refl _)
      · simp only [hnew, if_false]
        have hle : ¬ maxD > L := by omega
        simp only [hle, if_false]
        exact ih (cur + 1) maxD hmax (by omega)
    · simp only [ho, Bool.false_eq_true, if_false, zero_sub]
      have hle : ¬ maxD > L := by omega
      by_cases hc : isClosing c = true
      · simp only [hc, if_true, hle, if_false]
        have := ih (cur - 1) maxD hmax (by omega)
        rw [this]
        constructor
        · intro h n; have := h n; omega
        · intro h n; have := h n; omega
      · simp only [hc, Bool.false_eq_true, if_false, hle]
        have := ih cur maxD hmax hcur
        rw [this]
        constructor
        · intro h n; have := h n; omega
        · intro h n; have := h n; omega

/-- C9: `parseYAMLSafely` answers what the decoder answers exactly when the
payload has at most `maxSize` bytes and the running count of opening minus
closing characters stays at most `MaxNestLevel` over every prefix of the text.
A longer payload gets the size error and, within the size, a payload with a
prefix deeper than `MaxNestLevel` gets the depth error, whatever the decoder
would answer. -/
theorem parseYAMLSafely_guards (yamlUnmarshal : String → Option Obj) (yamlData : String)
    (maxSize : Int) :
    ((yamlData.utf8ByteSize : Int) ≤ maxSize →
      (∀ n, nestDepth (yamlData.data.take n) ≤ MaxNestLevel) →
      parseYAMLSafely yamlUnmarshal yamlData maxSize =
        match yamlUnmarshal yamlData with
        | none => .error .decode
        | some content => .ok content) ∧
    ((yamlData.utf8ByteSize : Int) > maxSize →
      parseYAMLSafely yamlUnmarshal yamlData maxSize = .error .tooLarge) ∧
    ((yamlData.utf8ByteSize : Int) ≤ maxSize →
      (∃ n, nestDepth (yamlData.data.take n) > MaxNestLevel) →
      ∃ detected, detected > MaxNestLevel ∧
        parseYAMLSafely yamlUnmarshal yamlData maxSize = .error (.tooDeep detected)) := by
  have hiff := scanNesting_none_iff MaxNestLevel yamlData.data 0 0 (by decide) (le_refl _)
  simp only [zero_add] at hiff
  refine ⟨?_, ?_, ?_⟩
  · intro hsize hdepth
    have hs : ¬ (yamlData.utf8ByteSize : Int) > maxSize := by omega
    simp only [parseYAMLSafely, hs, if_false, hiff.2 hdepth]
  · intro hsize
    simp only [parseYAMLSafely, hsize, if_true]
  · rintro hsize ⟨n, hn⟩
    have hs : ¬ (yamlData.utf8ByteSize : Int) > maxSize := by omega
    cases hscan : scanNesting MaxNestLevel yamlData.data 0 0 with
    | none => exact absurd (hiff.1 hscan n) (by omega)
    | some d =>
      exact ⟨d, scanNesting_some _ _ _ _ _ hscan, by simp only [parseYAMLSafely, hs, if_false, hscan]⟩

/-- C9, at the boundaries: a payload of exactly `maxSize` bytes is decoded and
one byte less of room gives the size error; depth 50 is decoded and depth 51
gets the depth error although the decoder accepts the text; the size error
comes before the depth error. -/
theorem parseYAMLSafely_guards_witness :
    parseYAMLSafely (fun _ => some testManifest) "a: [b]" 6 = .ok testManifest ∧
    parseYAMLSafely (fun _ => some testManifest) "a: [b]" 5 = .error .tooLarge ∧
    parseYAMLSafely (fun _ => some testManifest)
        (String.mk (List.replicate 50 '[' ++ List.replicate 50 ']')) MaxYAMLSize
      = .ok testManifest ∧
    parseYAMLSafely (fun _ => some testManifest)
        (String.mk (List.replicate 51 '[' ++ List.replicate 51 ']')) MaxYAMLSize
      = .error (.tooDeep 51) ∧
    parseYAMLSafely (fun _ => some testManifest)
        (String.mk (List.replicate 51 '[' ++ List.replicate 51 ']')) 101
      = .error .tooLarge :=
  ⟨rfl,
   (parseYAMLSafely_guards (fun _ => some testManifest) "a: [b]" 5).2.1 (by decide),
   rfl, rfl, rfl⟩

/-! ## `loadAndValidateYAML` -/

/-- C10: for a manifest file that can be read and whose payload passes the
guards and decodes to `content`, `loadAndValidateYAML` succeeds if and only if
`content` has a `clients` key bound to a mapping, and it then returns `content`
unchanged; otherwise it returns the missing-clients error.  Nothing else of
`content` is looked at. -/
theorem loadAndValidateYAML_shape (readFile : String → Option String)
    (yamlUnmarshal : String → Option Obj) (yamlFile yamlData : String) (content : Obj)
    (hread : readFile yamlFile = some yamlData)
    (hparse : parseYAMLSafely yamlUnmarshal yamlData MaxYAMLSize = .ok content) :
    ((∃ r, loadAndValidateYAML readFile yamlUnmarshal yamlFile = .ok r) ↔
      ∃ clients, Obj.get content "clients" = some (.obj clients)) ∧
    (∀ r, loadAndValidateYAML readFile yamlUnmarshal yamlFile = .ok r → r = content) ∧
    ((¬ ∃ clients, Obj.get content "clients" = some (.obj clients)) →
      loadAndValidateYAML readFile yamlUnmarshal yamlFile = .error .noClients) := by
  have hload : loadAndValidateYAML readFile yamlUnmarshal yamlFile =
      match Obj.index content "clients" with
      | .obj _ => .ok content
      | _ => .error .noClients := by
    simp only [loadAndValidateYAML, hread, hparse]
  have hidx : ∀ clients, Obj.index content "clients" = .obj clients ↔
      Obj.get content "clients" = some (.obj clients) := by
    intro clients
    rw [Obj.index_eq]
    cases Obj.get content "clients" with
    | none => simp
    | some v => simp
  rw [hload]
  cases hc : Obj.index content "clients" with
  | obj clients =>
    have := (hidx clients).1 hc
    refine ⟨⟨fun _ => ⟨clients, this⟩, fun _ => ⟨content, rfl⟩⟩, ?_, ?_⟩
    · intro r hr
      simp only [Except.ok.injEq] at hr
      exact hr.symm
    · intro hno
      exact absurd ⟨clients, this⟩ hno
  | null | bool _ | num _ | str _ | arr _ =>
    have hno : ¬ ∃ clients, Obj.get content "clients" = some (.obj clients) := by
      rintro ⟨clients, h⟩
      have := (hidx clients).2 h
      rw [hc] at this
      exact absurd this (by simp)
    refine ⟨⟨?_, fun h => absurd h hno⟩, ?_, fun _ => rfl⟩
    · rintro ⟨r, hr⟩
      exact absurd hr (by simp)
    · intro r hr
      exact absurd hr (by simp)

/-- C10, on the manifest of the test suite: a client whose `servers` is a
mapping rather than a list still loads, and the result has the key `clients`. -/
theorem loadAndValidateYAML_shape_witness :
    loadAndValidateYAML (fun _ => some "clients: ...") (fun _ => some testManifest) "test.yaml"
      = .ok testManifest ∧
    ((∃ r, loadAndValidateYAML (fun _ => some "clients: ...") (fun _ => some testManifest)
        "test.yaml" = .ok r) ↔
      ∃ clients, Obj.get testManifest "clients" = some (.obj clients)) :=
  ⟨rfl,
   (loadAndValidateYAML_shape (fun _ => some "clients: ...") (fun _ => some testManifest)
      "test.yaml" "clients: ..." testManifest rfl rfl).1⟩

/-! ## `processClients` -/

theorem processClientsLoop_withLog {σ : Type}
    (f : σ → String → Obj → List Char → σ × ApplyResult) (h : List Char)
    (clients : List (String × Value)) (s : σ) (log0 : List (String × Obj × Bool)) (n0 : Nat)
    (hrun : (processClientsLoop f h clients s n0).2 ≠ .panicked) :
    ∃ log count,
      processClientsLoop (withLog f) h clients (s, log0) n0 =
        (((processClientsLoop f h clients s n0).1, log0 ++ log), .done count) ∧
      (processClientsLoop f h clients s n0).2 = .done count ∧
      log.map (fun e => (e.1, e.2.1)) = mappingClients clients ∧
      count = n0 + (log.filter (fun e => e.2.2)).length ∧
      count ≤ n0 + clients.length := by
  induction clients generalizing s log0 n0 with
  | nil => exact ⟨[], n0, by simp [processClientsLoop], rfl, rfl, by simp, by simp⟩
  | cons kv rest ih =>
    obtain ⟨name, v⟩ := kv
    cases v with
    | obj config =>
      have hm : mappingClients ((name, Value.obj config) :: rest) =
          (name, config) :: mappingClients rest := by
        simp [mappingClients]
      cases hr : f s name config h with
      | mk s1 r =>
        cases r with
        | panicked =>
          simp only [processClientsLoop, hr] at hrun
          exact absurd rfl hrun
        | ok =>
          simp only [processClientsLoop, hr] at hrun
          obtain ⟨log, count, h1, h2, h3, h4, h5⟩ :=
            ih s1 (log0 ++ [(name, config, true)]) (n0 + 1) hrun
          refine ⟨(name, config, true) :: log, count, ?_, ?_, ?_, ?_, ?_⟩
          · simp only [processClientsLoop, withLog, hr]
            simpa using h1
          · simp only [processClientsLoop, hr]; exact h2
          · simp [hm, h3]
          · simp [h4]; omega
          · simp only [List.length_cons]; omega
        | failed e =>
          simp only [processClientsLoop, hr] at hrun
          obtain ⟨log, count, h1, h2, h3, h4, h5⟩ :=
            ih s1 (log0 ++ [(name, config, false)]) n0 hrun
          refine ⟨(name, config, false) :: log, count, ?_, ?_, ?_, ?_, ?_⟩
          · simp only [processClientsLoop, withLog, hr]
            simpa using h1
          · simp only [processClientsLoop, hr]; exact h2
          · simp [hm, h3]
          · simp [h4]
          · simp only [List.length_cons]; omega
    | null | bool _ | num _ | str _ | arr _ =>
      simp only [processClientsLoop] at hrun
      obtain ⟨log, count, h1, h2, h3, h4, h5⟩ := ih s log0 n0 hrun
      refine ⟨log, count, ?_, ?_, ?_, h4, ?_⟩
      · simp only [processClientsLoop]; exact h1
      · simp only [processClientsLoop]; exact h2
      · simp [mappingClients] at h3 ⊢; exact h3
      · simp only [List.length_cons]; omega

theorem processClientsLoop_stateless {σ : Type}
    (f : σ → String → Obj → List Char → σ × ApplyResult)
    (g : String → Obj → List Char → ApplyResult) (hg : ∀ s n c h, (f s n c h).2 = g n c h)
    (h : List Char) (clients : List (String × Value)) (s : σ) (n0 : Nat)
    (hrun : (processClientsLoop f h clients s n0).2 ≠ .panicked) :
    (processClientsLoop f h clients s n0).2 =
      .done (n0 + (mappingClients clients).countP (fun nc => decide (g nc.1 nc.2 h = .ok))) := by
  induction clients generalizing s n0 with
  | nil => simp [processClientsLoop, mappingClients]
  | cons kv rest ih =>
    obtain ⟨name, v⟩ := kv
    cases v with
    | obj config =>
      have hm : mappingClients ((name, Value.obj config) :: rest) =
          (name, config) :: mappingClients rest := by
        simp [mappingClients]
      cases hr : f s name config h with
      | mk s1 r =>
        have hgr := hg s name config h
        rw [hr] at hgr
        simp only at hgr
        cases r with
        | panicked =>
          simp only [processClientsLoop, hr] at hrun
          exact absurd rfl hrun
        | ok =>
          simp only [processClientsLoop, hr] at hrun
          simp only [processClientsLoop, hr, ih s1 (n0 + 1) hrun, hm, List.countP_cons, ← hgr]
          simp; omega
        | failed e =>
          simp only [processClientsLoop, hr] at hrun
          simp only [processClientsLoop, hr, ih s1 n0 hrun, hm, List.countP_cons, ← hgr]
          simp
    | null | bool _ | num _ | str _ | arr _ =>
      simp only [processClientsLoop] at hrun
      simp only [processClientsLoop, ih s n0 hrun]
      simp [mappingClients]

/-- C11 fails as stated: when the home directory cannot be determined,
`processClients` returns its error without invoking the per-client function for
the one client of the manifest, whose entry is a mapping. -/
theorem processClients_counterexample :
    mappingClients [("claude", .obj demoConfig)] = [("claude", demoConfig)] ∧
    (processClients none demoManifest
      (withLog (fun w _ config homeDir => processClientConfig w config homeDir))
      (emptyWorld, [])).2 = .failed ∧
    (processClients none demoManifest
      (withLog (fun w _ config homeDir => processClientConfig w config homeDir))
      (emptyWorld, [])).1.2 = [] :=
  ⟨rfl, rfl, rfl⟩

/-- C11, amended: for every manifest whose `clients` section is a mapping and
every per-client function, in a run of `processClients` that does not end in a
panic and in which the home directory can be determined, `processClients`
invokes the function exactly once for each client whose entry is a mapping,
whatever it returned for the others, skips the other clients without invoking
it, and returns as count the number of invocations that returned no error,
which is at most the number of clients; when the outcome of a call does not
depend on the state the earlier calls left, the count is the number of mapping
clients for which the function returns no error.  When the home directory
cannot be determined it invokes the function for no client and returns an
error. -/
theorem processClients_calls {σ : Type}
    (f : σ → String → Obj → List Char → σ × ApplyResult)
    (yamlContent : Obj) (clients : List (String × Value))
    (hc : Obj.index yamlContent "clients" = .obj clients) (s : σ) :
    (∀ h, (processClients (some h) yamlContent f s).2 ≠ .panicked →
      ∃ log count,
        processClients (some h) yamlContent (withLog f) (s, []) =
          (((processClients (some h) yamlContent f s).1, log), .done count) ∧
        (processClients (some h) yamlContent f s).2 = .done count ∧
        log.map (fun e => (e.1, e.2.1)) = mappingClients clients ∧
        count = (log.filter (fun e => e.2.2)).length ∧
        count ≤ clients.length ∧
        ∀ g : String → Obj → List Char → ApplyResult, (∀ s n c h, (f s n c h).2 = g n c h) →
          count = (mappingClients clients).countP (fun nc => decide (g nc.1 nc.2 h = .ok))) ∧
    processClients none yamlContent (withLog f) (s, []) = ((s, []), .failed) := by
  refine ⟨?_, rfl⟩
  intro h hrun
  have hrun' : (processClientsLoop f h clients s 0).2 ≠ .panicked := by
    simpa only [processClients, hc] using hrun
  obtain ⟨log, count, h1, h2, h3, h4, h5⟩ :=
    processClientsLoop_withLog f h clients s [] 0 hrun'
  refine ⟨log, count, ?_, ?_, h3, by simpa using h4, by simpa using h5, ?_⟩
  · simp only [processClients, hc]
    simpa using h1
  · simp only [processClients, hc]
    exact h2
  · intro g hg
    have := processClientsLoop_stateless f g hg h clients s 0 hrun'
    rw [h2] at this
    simpa using this

/-- C11, amended, at concrete manifests.  With `processClientConfig`, the
function that `applyConfig` passes, over two clients and no file: the run does
not panic, the function is called for both clients and the count is 2.  With a
function that fails for the client `bad`, over three clients of which one is
not a mapping: the function is called twice and the count is 1. -/
theorem processClients_calls_witness :
    ((processClients (some demoHome) twoClientManifest
        (fun w _ config homeDir => processClientConfig w config homeDir) emptyWorld).2
        ≠ .panicked ∧
      ∃ log count,
        processClients (some demoHome) twoClientManifest
            (withLog (fun w _ config homeDir => processClientConfig w config homeDir))
            (emptyWorld, []) =
          (((processClients (some demoHome) twoClientManifest
              (fun w _ config homeDir => processClientConfig w config homeDir) emptyWorld).1,
            log), .done count) ∧
        (processClients (some demoHome) twoClientManifest
          (fun w _ config homeDir => processClientConfig w config homeDir) emptyWorld).2
          = .done count ∧
        log.map (fun e => (e.1, e.2.1)) =
          mappingClients [("claude", .obj demoConfig), ("other", .obj otherConfig)] ∧
        count = (log.filter (fun e => e.2.2)).length ∧
        count ≤ [("claude", Value.obj demoConfig), ("other", .obj otherConfig)].length ∧
        ∀ g : String → Obj → List Char → ApplyResult,
          (∀ s n c h, (processClientConfig s c h).2 = g n c h) →
          count = (mappingClients
            [("claude", .obj demoConfig), ("other", .obj otherConfig)]).countP
              (fun nc => decide (g nc.1 nc.2 demoHome = .ok))) ∧
    (processClients (some demoHome) twoClientManifest
      (fun w _ config homeDir => processClientConfig w config homeDir) emptyWorld).2
      = .done 2 ∧
    ((processClients (some demoHome) mixedManifest countingFunc 0).2 ≠ .panicked ∧
      ∃ log count,
        processClients (some demoHome) mixedManifest (withLog countingFunc) (0, []) =
          (((processClients (some demoHome) mixedManifest countingFunc 0).1, log),
            .done count) ∧
        (processClients (some demoHome) mixedManifest countingFunc 0).2 = .done count ∧
        log.map (fun e => (e.1, e.2.1)) =
          mappingClients [("bad", .obj []), ("skipped", .str "oops"), ("good", .obj [])] ∧
        count = (log.filter (fun e => e.2.2)).length ∧
        count ≤
          [("bad", Value.obj []), ("skipped", Value.str "oops"), ("good", .obj [])].length ∧
        ∀ g : String → Obj → List Char → ApplyResult,
          (∀ s n c h, (countingFunc s n c h).2 = g n c h) →
          count = (mappingClients
            [("bad", .obj []), ("skipped", .str "oops"), ("good", .obj [])]).countP
              (fun nc => decide (g nc.1 nc.2 demoHome = .ok))) ∧
    processClients (some demoHome) mixedManifest countingFunc 0 = (2, .done 1) :=
  ⟨⟨by decide,
      (processClients_calls
        (fun w _ config homeDir => processClientConfig w config homeDir)
        twoClientManifest _ rfl emptyWorld).1 demoHome (by decide)⟩,
   by decide,
   ⟨by decide, (processClients_calls countingFunc mixedManifest _ rfl 0).1 demoHome (by decide)⟩,
   by decide⟩

/-! ## Panics in apply -/

/-- C12 fails on the code: when the target file of the first client holds a
JSON object whose `mcpServers` is an array, `processClientConfig`,
`generateApplyPreview` and `performApply` panic at their unchecked type
assertion; the batch functions end with that panic and the file of the second
client is never written.  A target file holding the document `null` makes both
apply paths panic as well, on the assignment into a nil map. -/
theorem apply_panics_on_non_object_servers :
    ((processClientConfig arrayWorld demoConfig demoHome).2 = .panicked ∧
      (performApplyClient jsonMarshal arrayWorld demoHome (.obj demoConfig)).2 = .panicked ∧
      generateApplyPreviewClient jsonMarshal arrayWorld demoHome (.obj demoConfig)
        = .panicked) ∧
    ((applyConfig (fun _ => some "") (fun _ => some twoClientManifest) (some demoHome)
        arrayWorld "mcp.yaml").2 = .panicked ∧
      (applyConfig (fun _ => some "") (fun _ => some twoClientManifest) (some demoHome)
        arrayWorld "mcp.yaml").1.files "/home/u/other.json".data = none ∧
      (performApply (fun _ => some "") (fun _ => some twoClientManifest) jsonMarshal demoHome
        arrayWorld "mcp.yaml").2 = .panicked ∧
      (performApply (fun _ => some "") (fun _ => some twoClientManifest) jsonMarshal demoHome
        arrayWorld "mcp.yaml").1.files "/home/u/other.json".data = none ∧
      generateApplyPreviewLoop jsonMarshal arrayWorld demoHome
        [("claude", .obj demoConfig), ("other", .obj otherConfig)] = none) ∧
    ((processClientConfig nullWorld demoConfig demoHome).2 = .panicked ∧
      (performApplyClient jsonMarshal nullWorld demoHome (.obj demoConfig)).2 = .panicked) ∧
    ((applyConfig (fun _ => some "") (fun _ => some twoClientManifest) (some demoHome)
        emptyWorld "mcp.yaml").2 = .done 2 ∧
      (performApply (fun _ => some "") (fun _ => some twoClientManifest) jsonMarshal demoHome
        emptyWorld "mcp.yaml").2 = .done 2) :=
  ⟨⟨rfl, rfl, rfl⟩, ⟨rfl, rfl, rfl, rfl, rfl⟩, ⟨rfl, rfl⟩, rfl, rfl⟩

/-! ## A target file that does not parse -/

/-- C13 fails on the code for `performApply`: over a non-empty target file that
is not JSON, `processClientConfig` returns its parse error and leaves the file
as it is, but `performApply` discards the error of `json.Unmarshal`, takes the
existing state to be empty, overwrites the file with the desired servers and
counts the client.  A missing or an empty file is taken as the empty map by
both. -/
theorem unparsable_file_is_overwritten :
    ((processClientConfig garbageWorld demoConfig demoHome).2 = .failed .jsonParse ∧
      (processClientConfig garbageWorld demoConfig demoHome).1.files
        "/home/u/.claude.json".data = some .garbage) ∧
    ((performApplyClient jsonMarshal garbageWorld demoHome (.obj demoConfig)).2 = .updated ∧
      (performApplyClient jsonMarshal garbageWorld demoHome (.obj demoConfig)).1.files
          "/home/u/.claude.json".data
        = some (.json (.obj [("mcpServers", .obj [("test", .obj [("command", .str "foo")])])])) ∧
      (performApply (fun _ => some "") (fun _ => some demoManifest) jsonMarshal demoHome
        garbageWorld "mcp.yaml").2 = .done 1) ∧
    ((processClientConfig emptyWorld demoConfig demoHome).2 = .ok ∧
      (processClientConfig emptyFileWorld demoConfig demoHome).2 = .ok ∧
      (performApplyClient jsonMarshal emptyWorld demoHome (.obj demoConfig)).2 = .updated ∧
      (performApplyClient jsonMarshal emptyFileWorld demoHome (.obj demoConfig)).2
        = .updated ∧
      (processClientConfig emptyFileWorld demoConfig demoHome).1.files
          "/home/u/.claude.json".data
        = some (.json (.obj [("mcpServers", .obj [("test", .obj [("command", .str "foo")])])]))) :=
  ⟨⟨rfl, rfl⟩, ⟨rfl, rfl, rfl⟩, rfl, rfl, rfl, rfl, rfl⟩

/-! ## Import -/

theorem OutputClients.get_after_set (m : OutputClients) (k : String) (v : ImportEntry) :
    OutputClients.get (OutputClients.set m k v) k = some v := by
  induction m with
  | nil => simp [OutputClients.set, OutputClients.get, List.lookup]
  | cons kv rest ih =>
    obtain ⟨a, b⟩ := kv
    by_cases h : a = k
    · subst h
      simp [OutputClients.set, OutputClients.get, List.lookup]
    · have h1 : (k == a) = false := by simpa using fun e : k = a => h e.symm
      simp only [OutputClients.set, h, if_false, OutputClients.get, List.lookup, h1]
      exact ih

/-- C14: for every client whose config has a string path, every home directory
and every state of the files, `processSingleClientImportWithOutput` binds the
client's name in the output to an entry whose path is the input path string.
The entry's `servers` is nil exactly when the path does not resolve, the file
cannot be read, its JSON does not parse, or `mcpServers` is absent, not an
object or empty; the function then returns an error and the loop of
`importConfig` does not count the client.  Otherwise `servers` is
`convertMcpServersToYaml` of the file's `mcpServers`, the function returns nil
and the loop counts the client. -/
theorem import_entry (w : World) (clientName : String) (config : Obj) (homeDir : List Char)
    (outputClients : OutputClients) (p : String) (hp : Obj.index config "path" = .str p) :
    ∃ servers,
      OutputClients.get
          (processSingleClientImportWithOutput w clientName config homeDir outputClients).1
          clientName
        = some { path := p, servers := servers } ∧
      (servers = none ↔
        (∃ e, validateSafePath w.wd p.data homeDir = .error e) ∨
        (∃ vp, validateSafePath w.wd p.data homeDir = .ok vp ∧ w.files vp = none) ∨
        (∃ vp data, validateSafePath w.wd p.data homeDir = .ok vp ∧ w.files vp = some data ∧
          (unmarshalInto data).1 = true) ∨
        (∃ vp data, validateSafePath w.wd p.data homeDir = .ok vp ∧ w.files vp = some data ∧
          (unmarshalInto data).1 = false ∧
          ∀ ms, Obj.index ((unmarshalInto data).2.getD []) "mcpServers" = .obj ms → ms = [])) ∧
      (servers = none →
        (processSingleClientImportWithOutput w clientName config homeDir outputClients).2
          ≠ none ∧
        ∀ rest n, importLoop w homeDir ((clientName, .obj config) :: rest) outputClients n =
          importLoop w homeDir rest
            (processSingleClientImportWithOutput w clientName config homeDir outputClients).1
            n) ∧
      (servers ≠ none →
        (∃ vp data ms, validateSafePath w.wd p.data homeDir = .ok vp ∧
          w.files vp = some data ∧
          Obj.index ((unmarshalInto data).2.getD []) "mcpServers" = .obj ms ∧
          servers = some (convertMcpServersToYaml ms)) ∧
        (processSingleClientImportWithOutput w clientName config homeDir outputClients).2
          = none ∧
        ∀ rest n, importLoop w homeDir ((clientName, .obj config) :: rest) outputClients n =
          importLoop w homeDir rest
            (processSingleClientImportWithOutput w clientName config homeDir outputClients).1
            (n + 1)) := by
  cases hv : validateSafePath w.wd p.data homeDir with
  | error e =>
    have hr : processSingleClientImportWithOutput w clientName config homeDir outputClients =
        (OutputClients.set outputClients clientName { path := p, servers := none },
          some (.security e)) := by
      simp only [processSingleClientImportWithOutput, hp, hv]
    refine ⟨none, ?_, ?_, ?_, ?_⟩
    · rw [hr]; exact OutputClients.get_after_set _ _ _
    · exact ⟨fun _ => Or.inl ⟨e, rfl⟩, fun _ => rfl⟩
    · intro _
      refine ⟨by rw [hr]; simp, ?_⟩
      intro rest n
      simp only [importLoop, hr]
    · intro h; exact absurd rfl h
  | ok vp =>
    cases hf : w.files vp with
    | none =>
      have hr : processSingleClientImportWithOutput w clientName config homeDir outputClients =
          (OutputClients.set outputClients clientName { path := p, servers := none },
            some .read) := by
        simp only [processSingleClientImportWithOutput, hp, hv, hf]
      refine ⟨none, ?_, ?_, ?_, ?_⟩
      · rw [hr]; exact OutputClients.get_after_set _ _ _
      · exact ⟨fun _ => Or.inr (Or.inl ⟨vp, rfl, hf⟩), fun _ => rfl⟩
      · intro _
        refine ⟨by rw [hr]; simp, ?_⟩
        intro rest n
        simp only [importLoop, hr]
      · intro h; exact absurd rfl h
    | some data =>
      by_cases herr : (unmarshalInto data).1 = true
      · have hr : processSingleClientImportWithOutput w clientName config homeDir
            outputClients =
            (OutputClients.set outputClients clientName { path := p, servers := none },
              some .parse) := by
          simp only [processSingleClientImportWithOutput, hp, hv, hf, herr, if_true]
        refine ⟨none, ?_, ?_, ?_, ?_⟩
        · rw [hr]; exact OutputClients.get_after_set _ _ _
        · exact ⟨fun _ => Or.inr (Or.inr (Or.inl ⟨vp, data, rfl, hf, herr⟩)), fun _ => rfl⟩
        · intro _
          refine ⟨by rw [hr]; simp, ?_⟩
          intro rest n
          simp only [importLoop, hr]
        · intro h; exact absurd rfl h
      · have herr' : (unmarshalInto data).1 = false := by simpa using herr
        by_cases hms : ∃ ms, Obj.index ((unmarshalInto data).2.getD []) "mcpServers" = .obj ms ∧
            ms ≠ []
        · obtain ⟨ms, hidx, hne⟩ := hms
          have hlen : ms.length ≠ 0 := by simpa [List.length_eq_zero] using hne
          have hr : processSingleClientImportWithOutput w clientName config homeDir
              outputClients =
              (OutputClients.set outputClients clientName
                { path := p, servers := some (convertMcpServersToYaml ms) }, none) := by
            simp only [processSingleClientImportWithOutput, hp, hv, hf, herr',
              Bool.false_eq_true, if_false, hidx, hlen]
          refine ⟨some (convertMcpServersToYaml ms), ?_, ?_, ?_, ?_⟩
          · rw [hr]; exact OutputClients.get_after_set _ _ _
          · constructor
            · intro h; exact absurd h (by simp)
            · rintro (⟨e, he⟩ | ⟨vp', hvp', hf'⟩ | ⟨vp', data', hvp', hf', he'⟩ |
                ⟨vp', data', hvp', hf', -, hall⟩)
              · exact absurd he (by simp)
              · simp only [Except.ok.injEq] at hvp'
                subst hvp'
                rw [hf] at hf'
                exact absurd hf' (by simp)
              · simp only [Except.ok.injEq] at hvp'
                subst hvp'
                rw [hf] at hf'
                simp only [Option.some.injEq] at hf'
                subst hf'
                exact absurd he' herr
              · simp only [Except.ok.injEq] at hvp'
                subst hvp'
                rw [hf] at hf'
                simp only [Option.some.injEq] at hf'
                subst hf'
                exact absurd (hall ms hidx) hne
          · intro h; exact absurd h (by simp)
          · intro _
            refine ⟨⟨vp, data, ms, rfl, hf, hidx, rfl⟩, by rw [hr], ?_⟩
            intro rest n
            simp only [importLoop, hr]
        · have hall : ∀ ms, Obj.index ((unmarshalInto data).2.getD []) "mcpServers" = .obj ms →
              ms = [] := by
            intro ms hidx
            by_contra hne
            exact hms ⟨ms, hidx, hne⟩
          have hr : processSingleClientImportWithOutput w clientName config homeDir
              outputClients =
              (OutputClients.set outputClients clientName { path := p, servers := none },
                some .noServers) := by
            simp only [processSingleClientImportWithOutput, hp, hv, hf, herr',
              Bool.false_eq_true, if_false]
            cases hidx : Obj.index ((unmarshalInto data).2.getD []) "mcpServers" with
            | obj ms =>
              have := hall ms hidx
              subst this
              simp
            | null | bool _ | num _ | str _ | arr _ => rfl
          refine ⟨none, ?_, ?_, ?_, ?_⟩
          · rw [hr]; exact OutputClients.get_after_set _ _ _
          · exact ⟨fun _ => Or.inr (Or.inr (Or.inr ⟨vp, data, rfl, hf, herr', hall⟩)),
              fun _ => rfl⟩
          · intro _
            refine ⟨by rw [hr]; simp, ?_⟩
            intro rest n
            simp only [importLoop, hr]
          · intro h; exact absurd rfl h

/-- C14, at concrete inputs: the client of `demoConfig` over a file with two
servers is imported with its original path `~/.claude.json`, and over a missing
file it gets a nil `servers` and an error. -/
theorem import_entry_witness :
    (∃ servers,
      OutputClients.get
          (processSingleClientImportWithOutput demoWorld "claude" demoConfig demoHome []).1
          "claude"
        = some { path := "~/.claude.json", servers := servers } ∧
      (servers = none ↔
        (∃ e, validateSafePath demoWorld.wd "~/.claude.json".data demoHome = .error e) ∨
        (∃ vp, validateSafePath demoWorld.wd "~/.claude.json".data demoHome = .ok vp ∧
          demoWorld.files vp = none) ∨
        (∃ vp data, validateSafePath demoWorld.wd "~/.claude.json".data demoHome = .ok vp ∧
          demoWorld.files vp = some data ∧ (unmarshalInto data).1 = true) ∨
        (∃ vp data, validateSafePath demoWorld.wd "~/.claude.json".data demoHome = .ok vp ∧
          demoWorld.files vp = some data ∧ (unmarshalInto data).1 = false ∧
          ∀ ms, Obj.index ((unmarshalInto data).2.getD []) "mcpServers" = .obj ms → ms = [])) ∧
      (servers = none →
        (processSingleClientImportWithOutput demoWorld "claude" demoConfig demoHome []).2
          ≠ none ∧
        ∀ rest n, importLoop demoWorld demoHome (("claude", .obj demoConfig) :: rest) [] n =
          importLoop demoWorld demoHome rest
            (processSingleClientImportWithOutput demoWorld "claude" demoConfig demoHome []).1
            n) ∧
      (servers ≠ none →
        (∃ vp data ms, validateSafePath demoWorld.wd "~/.claude.json".data demoHome = .ok vp ∧
          demoWorld.files vp = some data ∧
          Obj.index ((unmarshalInto data).2.getD []) "mcpServers" = .obj ms ∧
          servers = some (convertMcpServersToYaml ms)) ∧
        (processSingleClientImportWithOutput demoWorld "claude" demoConfig demoHome []).2
          = none ∧
        ∀ rest n, importLoop demoWorld demoHome (("claude", .obj demoConfig) :: rest) [] n =
          importLoop demoWorld demoHome rest
            (processSingleClientImportWithOutput demoWorld "claude" demoConfig demoHome []).1
            (n + 1))) ∧
    (processSingleClientImportWithOutput demoWorld "claude" demoConfig demoHome []).2 = none ∧
    (processSingleClientImportWithOutput emptyWorld "claude" demoConfig demoHome []).2
      = some .read :=
  ⟨import_entry demoWorld "claude" demoConfig demoHome [] "~/.claude.json" rfl, rfl, rfl⟩

/-! ## Command dispatch -/

/-- C15: with no arguments `main` launches the TUI and does nothing else; with
a command and no file it exits with code 1 and calls neither the apply function
nor the import function; with a command and a file it runs `runCommand`, which
calls the apply function exactly once with the file for `apply`, the import
function exactly once with the file for `import`, and for every other command
calls neither and exits with code 1. -/
theorem command_dispatch (prog : String) :
    main [prog] = some [.callTUI] ∧
    (∀ command, ∃ effects, main [prog, command] = some effects ∧
      effects.getLast? = some (.exit 1) ∧
      ∀ f, Effect.callApply f ∉ effects ∧ Effect.callImport f ∉ effects) ∧
    (∀ command yamlFile rest,
      main (prog :: command :: yamlFile :: rest) = some (runCommand command yamlFile)) ∧
    (∀ yamlFile, runCommand "apply" yamlFile = [.callApply yamlFile]) ∧
    (∀ yamlFile, runCommand "import" yamlFile = [.callImport yamlFile]) ∧
    (∀ command yamlFile, command ≠ "apply" → command ≠ "import" →
      (runCommand command yamlFile).getLast? = some (.exit 1) ∧
      ∀ f, Effect.callApply f ∉ runCommand command yamlFile ∧
        Effect.callImport f ∉ runCommand command yamlFile) := by
  refine ⟨rfl, ?_, ?_, ?_, ?_, ?_⟩
  · intro command
    exact ⟨_, rfl, by simp, by intro f; simp⟩
  · intro command yamlFile rest
    rfl
  · intro yamlFile
    simp [runCommand, CommandApply]
  · intro yamlFile
    have : ¬ ("import" = CommandApply) := by decide
    simp [runCommand, this, CommandImport]
  · intro command yamlFile h1 h2
    have e1 : ¬ command = CommandApply := h1
    have e2 : ¬ command = CommandImport := h2
    simp [runCommand, e1, e2, printUsage]

/-! ## Names that begin with two dots -/

/-- C16 fails on the code: `..cache/mcp.json` under the home directory `/home/u`
resolves to `/home/u/..cache/mcp.json`, a clean path beneath the home
directory, and `validateSafePath` refuses it as lying outside, because the
relative form `..cache/mcp.json` begins with two dots.  The witness of the
claim, `~/.claude.json`, is accepted. -/
theorem dotdot_name_is_refused :
    Join ["/home/u".data, Clean "..cache/mcp.json".data] = "/home/u/..cache/mcp.json".data ∧
    Clean "/home/u/..cache/mcp.json".data = "/home/u/..cache/mcp.json".data ∧
    Within "/home/u".data "/home/u/..cache/mcp.json".data ∧
    Rel "/home/u".data "/home/u/..cache/mcp.json".data = some "..cache/mcp.json".data ∧
    validateSafePath none "..cache/mcp.json".data "/home/u".data = .error .outsideHome ∧
    validateSafePath none "~/..cache/mcp.json".data "/home/u".data = .error .outsideHome ∧
    validateSafePath none "/home/u/..cache/mcp.json".data "/home/u".data
      = .error .outsideHome ∧
    validateSafePath none "~/.claude.json".data "/home/u".data
      = .ok "/home/u/.claude.json".data := by
  refine ⟨by decide, by decide, Or.inr (Or.inr ⟨"..cache/mcp.json".data, by decide⟩),
    by decide, by decide, by decide, by decide, by decide⟩

/-! ## Idempotence of the merge -/

theorem Obj.set_of_get (m : Obj) (k : String) (v : Value) (h : Obj.get m k = some v) :
    Obj.set m k v = m := by
  induction m with
  | nil => simp [Obj.get_nil] at h
  | cons kv rest ih =>
    obtain ⟨a, b⟩ := kv
    rw [Obj.get_cons] at h
    by_cases e : a = k
    · subst e
      simp only [if_true, Option.some.injEq] at h
      subst h
      simp [Obj.set]
    · have e' : ¬ k = a := fun c => e c.symm
      simp only [e', if_false] at h
      simp [Obj.set, e, ih h]

theorem foldl_set_of_get (servers m : Obj)
    (h : ∀ kv ∈ servers, Obj.get m kv.1 = some kv.2) :
    servers.foldl (fun acc kv => Obj.set acc kv.1 kv.2) m = m := by
  induction servers with
  | nil => rfl
  | cons kv rest ih =>
    rw [List.foldl_cons, Obj.set_of_get m kv.1 kv.2 (h kv (by simp))]
    exact ih (fun x hx => h x (List.mem_cons_of_mem _ hx))

theorem foldl_set_twice (servers ms : Obj) (hnd : (Obj.keys servers).Nodup) :
    servers.foldl (fun acc kv => Obj.set acc kv.1 kv.2)
        (servers.foldl (fun acc kv => Obj.set acc kv.1 kv.2) ms) =
      servers.foldl (fun acc kv => Obj.set acc kv.1 kv.2) ms := by
  apply foldl_set_of_get
  intro kv hkv
  rw [foldl_set_get servers ms hnd, (Obj.mem_iff_get servers hnd kv.1 kv.2).1 hkv]

theorem mergeServers_twice (e servers : Obj) (hnd : (Obj.keys servers).Nodup)
    (h : Obj.index e "mcpServers" = .null ∨ ∃ ms, Obj.index e "mcpServers" = .obj ms) :
    ∃ out, mergeServers (some e) servers = some out ∧
      mergeServers (some out) servers = some out := by
  have hkey : ∀ (x : Obj) (ms : Obj), Obj.index x "mcpServers" = .obj ms →
      mergeServers (some x) servers = some (Obj.set x "mcpServers"
        (.obj (servers.foldl (fun acc kv => Obj.set acc kv.1 kv.2) ms))) := by
    intro x ms hx
    simp [mergeServers, hx]
  have hidem : ∀ (x : Obj) (ms : Obj),
      mergeServers (some (Obj.set x "mcpServers"
        (.obj (servers.foldl (fun acc kv => Obj.set acc kv.1 kv.2) ms)))) servers =
      some (Obj.set x "mcpServers"
        (.obj (servers.foldl (fun acc kv => Obj.set acc kv.1 kv.2) ms))) := by
    intro x ms
    rw [hkey _ (servers.foldl (fun acc kv => Obj.set acc kv.1 kv.2) ms)
      (by rw [Obj.index_set]; simp), foldl_set_twice servers ms hnd]
    congr 1
    apply Obj.set_of_get
    rw [Obj.get_set]
    simp
  rcases h with h | ⟨ms, h⟩
  · refine ⟨Obj.set (Obj.set e "mcpServers" (.obj [])) "mcpServers"
      (.obj (servers.foldl (fun acc kv => Obj.set acc kv.1 kv.2) [])), ?_, hidem _ _⟩
    simp [mergeServers, h, Obj.index_set]
  · exact ⟨_, hkey e ms h, hidem _ _⟩

theorem Obj.set_set (m : Obj) (k : String) (a b : Value) :
    Obj.set (Obj.set m k a) k b = Obj.set m k b := by
  induction m with
  | nil => simp [Obj.set]
  | cons kv rest ih =>
    obtain ⟨x, y⟩ := kv
    by_cases e : x = k
    · simp [Obj.set, e]
    · simp [Obj.set, e, ih]

theorem Obj.set_comm (m : Obj) (k k2 : String) (v v2 : Value) (hk : k ∈ Obj.keys m)
    (hne : k ≠ k2) :
    Obj.set (Obj.set m k2 v2) k v = Obj.set (Obj.set m k v) k2 v2 := by
  induction m with
  | nil => simp [Obj.keys] at hk
  | cons kv rest ih =>
    obtain ⟨x, y⟩ := kv
    by_cases e : x = k
    · subst e
      simp [Obj.set, hne]
    · have hk' : k ∈ Obj.keys rest := by
        simp only [Obj.keys, List.map_cons, List.mem_cons] at hk
        rcases hk with h | h
        · exact absurd h.symm e
        · exact h
      by_cases e2 : x = k2
      · subst e2
        simp [Obj.set, e]
      · simp [Obj.set, e, e2, ih hk']

theorem Obj.mem_keys_set (m : Obj) (k k2 : String) (v2 : Value) (hk : k ∈ Obj.keys m) :
    k ∈ Obj.keys (Obj.set m k2 v2) := by
  rw [Obj.keys_set]
  split
  · exact hk
  · exact List.mem_append_left _ hk

theorem foldl_set_comm (ds m : Obj) (k : String) (v : Value) (hk : k ∈ Obj.keys m)
    (hnot : k ∉ Obj.keys ds) :
    Obj.set (ds.foldl (fun acc kv => Obj.set acc kv.1 kv.2) m) k v =
      ds.foldl (fun acc kv => Obj.set acc kv.1 kv.2) (Obj.set m k v) := by
  induction ds generalizing m with
  | nil => rfl
  | cons kv rest ih =>
    obtain ⟨k2, v2⟩ := kv
    have hne : k ≠ k2 := fun c => hnot (by simp [Obj.keys, c])
    have hrest : k ∉ Obj.keys rest := fun c => hnot (by
      simp only [Obj.keys, List.map_cons, List.mem_cons]
      exact Or.inr c)
    rw [List.foldl_cons, List.foldl_cons, ih _ (Obj.mem_keys_set m k k2 v2 hk) hrest,
      Obj.set_comm m k k2 v v2 hk hne]

theorem foldl_set_cover (d d' m : Obj) (hkeys : Obj.keys d' = Obj.keys d)
    (hnd : (Obj.keys d).Nodup) :
    d.foldl (fun acc kv => Obj.set acc kv.1 kv.2)
        (d'.foldl (fun acc kv => Obj.set acc kv.1 kv.2) m) =
      d.foldl (fun acc kv => Obj.set acc kv.1 kv.2) m := by
  induction d generalizing d' m with
  | nil =>
    cases d' with
    | nil => rfl
    | cons kv rest => simp [Obj.keys] at hkeys
  | cons kv ds ih =>
    obtain ⟨k, v⟩ := kv
    cases d' with
    | nil => simp [Obj.keys] at hkeys
    | cons kv' ds' =>
      obtain ⟨k', v'⟩ := kv'
      simp only [Obj.keys, List.map_cons, List.cons.injEq] at hkeys
      obtain ⟨hk, hrest⟩ := hkeys
      subst hk
      simp only [Obj.keys, List.map_cons, List.nodup_cons] at hnd
      have hnot : k' ∉ Obj.keys ds' := by
        rw [Obj.keys, hrest]
        exact hnd.1
      have hmem : k' ∈ Obj.keys (Obj.set m k' v') := by
        rw [Obj.keys_set]
        split
        · assumption
        · simp
      simp only [List.foldl_cons]
      rw [foldl_set_comm ds' (Obj.set m k' v') k' v hmem hnot, Obj.set_set]
      exact ih ds' (Obj.set m k' v) hrest hnd.2

/-- Merging the desired servers into the read-back of a merge gives the merge
again, when the existing content reads back unchanged. -/
theorem mergeServers_reread (r : Int → Int) (e servers : Obj)
    (hnd : (Obj.keys servers).Nodup)
    (h : Obj.index e "mcpServers" = .null ∨ ∃ ms, Obj.index e "mcpServers" = .obj ms)
    (hfix : rereadFields r e = e) :
    ∃ out, mergeServers (some e) servers = some out ∧
      mergeServers (some (rereadFields r out)) servers = some out := by
  have hkey : ∀ (x : Obj) (ms : Obj), Obj.index x "mcpServers" = .obj ms →
      mergeServers (some x) servers = some (Obj.set x "mcpServers"
        (.obj (servers.foldl (fun acc kv => Obj.set acc kv.1 kv.2) ms))) := by
    intro x ms hx
    simp [mergeServers, hx]
  have hidem : ∀ (x : Obj) (ms : Obj), rereadFields r x = x → rereadFields r ms = ms →
      mergeServers (some (rereadFields r (Obj.set x "mcpServers"
        (.obj (servers.foldl (fun acc kv => Obj.set acc kv.1 kv.2) ms))))) servers =
      some (Obj.set x "mcpServers"
        (.obj (servers.foldl (fun acc kv => Obj.set acc kv.1 kv.2) ms))) := by
    intro x ms hx hms
    have hre : rereadFields r (Obj.set x "mcpServers"
          (.obj (servers.foldl (fun acc kv => Obj.set acc kv.1 kv.2) ms))) =
        Obj.set x "mcpServers"
          (.obj ((rereadFields r servers).foldl (fun acc kv => Obj.set acc kv.1 kv.2) ms)) := by
      rw [rereadFields_set, hx]
      simp only [rereadValue]
      rw [rereadFields_foldl, hms]
    rw [hre, hkey _ ((rereadFields r servers).foldl (fun acc kv => Obj.set acc kv.1 kv.2) ms)
      (by rw [Obj.index_set]; simp), Obj.set_set,
      foldl_set_cover servers (rereadFields r servers) ms (rereadFields_keys r servers) hnd]
  rcases h with h | ⟨ms, h⟩
  · refine ⟨Obj.set (Obj.set e "mcpServers" (.obj [])) "mcpServers"
      (.obj (servers.foldl (fun acc kv => Obj.set acc kv.1 kv.2) [])), ?_, hidem _ _ ?_ rfl⟩
    · simp [mergeServers, h, Obj.index_set]
    · rw [rereadFields_set, hfix]
      rfl
  · refine ⟨_, hkey e ms h, hidem e ms hfix ?_⟩
    have := rereadFields_index_obj r e "mcpServers" ms h
    rw [hfix, h] at this
    simp only [Value.obj.injEq] at this
    exact this.symm

/-- C17: merging the desired servers into the result of merging them into `e`
gives the structure that merging them into `e` once gives, for every existing
content `e` whose `mcpServers` is nil or an object and every desired server
map.  So in the setting of `ApplySetting`, with an existing content that reads
back from a file as it is, a first `processClientConfig` that the encoder
accepts writes the merge `out`, and a second apply of the same manifest,
whenever it writes, writes `out` again: the two writes of the log hold the same
content. -/
theorem merge_idempotent :
    (∀ e d : Obj, (Obj.keys d).Nodup →
      (Obj.index e "mcpServers" = .null ∨ ∃ ms, Obj.index e "mcpServers" = .obj ms) →
      ∃ out, mergeServers (some e) d = some out ∧ mergeServers (some out) d = some out) ∧
    (∀ (marshal : Value → String) (w : World) (home : List Char) (config : Obj)
      (vp : List Char) (e : Obj), ApplySetting w home config vp e →
      rereadFields w.readBack e = e →
      ∃ out,
        mergeServers (some e) (extractClientServers config) = some out ∧
        (w.encodeOk out = true →
          processClientConfig w config home = (w.write vp out, .ok) ∧
          processClientConfig (w.write vp out) config home
            = ((w.write vp out).write vp out, .ok) ∧
          (performApplyClient marshal (w.write vp out) home (.obj config)
              = ((w.write vp out).write vp out, .updated) ∨
            performApplyClient marshal (w.write vp out) home (.obj config)
              = (w.write vp out, .skipped .noChanges)) ∧
          ((w.write vp out).write vp out).writes = w.writes ++ [(vp, out), (vp, out)]) ∧
        (w.encodeOk out = false →
          processClientConfig w config home = (w, .failed .marshal))) := by
  refine ⟨fun e d hd hm => mergeServers_twice e d hd hm, ?_⟩
  intro marshal w home config vp e hs hfix
  have hnd := extractClientServers_keys_nodup config
  obtain ⟨out, hout, hproc, -⟩ := apply_eq marshal w home config vp e hs
  obtain ⟨out', hout', hagain⟩ :=
    mergeServers_reread w.readBack e (extractClientServers config) hnd hs.mcp hfix
  rw [hout] at hout'
  simp only [Option.some.injEq] at hout'
  subst hout'
  obtain ⟨p, hp, hvp⟩ := hs.path
  have hs2 := setting_after_write w home config p vp (some e) out hp hvp hs.servers hout
    hs.io.1 hs.io.2
  obtain ⟨out2, hout2, hproc2, htui2⟩ := apply_eq marshal _ home config vp _ hs2
  rw [hagain] at hout2
  simp only [Option.some.injEq] at hout2
  subst hout2
  refine ⟨out, hout, ?_, ?_⟩
  · intro henc
    have henc' : (w.write vp out).encodeOk out = true := henc
    refine ⟨by rw [hproc, henc]; simp, by rw [hproc2, henc']; simp, ?_, ?_⟩
    · rw [htui2, henc']
      cases hasChanges marshal (extractClientServers config)
        (existingServersOf (rereadFields w.readBack out))
      · exact Or.inr (by simp)
      · exact Or.inl (by simp)
    · simp [World.write]
  · intro henc
    rw [hproc, henc]; simp

/-- C17, at concrete inputs: merging the server of `demoConfig` twice into the
content of the file of `demoWorld`, and applying twice in `demoWorld`. -/
theorem merge_idempotent_witness :
    (∃ out,
      mergeServers
          (some [("theme", .str "dark"),
            ("mcpServers", .obj
              [("old", .obj [("command", .str "bar")]),
               ("test", .obj [("command", .str "foo")])])])
          (extractClientServers demoConfig) = some out ∧
      mergeServers (some out) (extractClientServers demoConfig) = some out) ∧
    (∃ out,
      mergeServers
          (some [("theme", .str "dark"),
            ("mcpServers", .obj
              [("old", .obj [("command", .str "bar")]),
               ("test", .obj [("command", .str "foo")])])])
          (extractClientServers demoConfig) = some out ∧
      (demoWorld.encodeOk out = true →
        processClientConfig demoWorld demoConfig demoHome
          = (demoWorld.write "/home/u/.claude.json".data out, .ok) ∧
        processClientConfig (demoWorld.write "/home/u/.claude.json".data out) demoConfig
            demoHome
          = ((demoWorld.write "/home/u/.claude.json".data out).write
              "/home/u/.claude.json".data out, .ok) ∧
        (performApplyClient jsonMarshal (demoWorld.write "/home/u/.claude.json".data out)
              demoHome (.obj demoConfig)
            = ((demoWorld.write "/home/u/.claude.json".data out).write
                "/home/u/.claude.json".data out, .updated) ∨
          performApplyClient jsonMarshal (demoWorld.write "/home/u/.claude.json".data out)
              demoHome (.obj demoConfig)
            = (demoWorld.write "/home/u/.claude.json".data out, .skipped .noChanges)) ∧
        ((demoWorld.write "/home/u/.claude.json".data out).write
            "/home/u/.claude.json".data out).writes
          = demoWorld.writes ++
              [("/home/u/.claude.json".data, out), ("/home/u/.claude.json".data, out)]) ∧
      (demoWorld.encodeOk out = false →
        processClientConfig demoWorld demoConfig demoHome
          = (demoWorld, .failed .marshal))) :=
  ⟨merge_idempotent.1 _ _ (extractClientServers_keys_nodup demoConfig) (Or.inr ⟨_, rfl⟩),
   merge_idempotent.2 jsonMarshal demoWorld demoHome demoConfig "/home/u/.claude.json".data _
    { path := ⟨"~/.claude.json", rfl, by decide⟩
      servers := by
        rw [show extractClientServers demoConfig = [("test", .obj [("command", .str "foo")])]
          from rfl]
        exact List.cons_ne_nil _ _
      file := Or.inl rfl
      mcp := Or.inr ⟨_, rfl⟩
      io := ⟨rfl, rfl⟩ }
    rfl⟩

end Mcpyammy
